import Mathlib

/-!
Verification of the clip-generation core of the `downlo` repository.

The TypeScript source is shallowly embedded as follows:
* JavaScript numbers (all times, durations and scores) are modelled as `ℚ`;
  every arithmetic operation appearing in the source (`+`, `-`, `*`, `/`,
  `Math.floor`, `Math.round`, `Math.min`, `Math.max`, `Math.abs`, `%`) is exact
  on the values the programs manipulate, so `ℚ` is a faithful model.
* JavaScript strings are modelled as `List Char` (the sources only ever index
  and slice by code units, which coincide with characters on the ASCII data
  involved); `String.prototype.toLowerCase` is modelled by `Char.toLower`,
  `trim` by dropping whitespace on both ends, `split(/\s+/)` and
  `split(/[.!?]+/)` by `jsSplit` below, `slice` by `jsSlice`,
  `replace(/pat/g, rep)` by `replaceAll`.
* The functions are translated from
  `src/app/api/shorts/generate/route.ts` (`parseVTT` passes 2 and 3,
  `generateSegmentsFromDuration`, `findBestClips`, `scoreClip`),
  `src/unnamed/part_008` (`chunkSegments`, `generateSrt`, `toSrtTime`,
  `hexToAssBgr`, the caption-style resolution in `GET`), and
  `src/app/shorts/edit/components/CaptionOverlay.tsx` (`getChunkedCaption`).
  Pass 1 of `parseVTT` (the external `subtitle`-library parse plus
  `cleanVTTText`) only produces the cue list that passes 2 and 3 consume, so
  the embedding starts from an arbitrary cue list.
-/

namespace Downlo

unseal Rat.add Rat.sub Rat.mul Rat.inv Rat.ofScientific

set_option maxRecDepth 20000

/-- JavaScript `\s` on the character data handled by the sources: space, tab,
newline, carriage return, vertical tab, form feed. -/
def isWs (c : Char) : Bool :=
  c = ' ' || c = '\t' || c = '\n' || c = '\r' || c = Char.ofNat 11 || c = Char.ofNat 12

/-- `String.prototype.toLowerCase` (ASCII range). -/
def lowerL (l : List Char) : List Char := l.map Char.toLower

/-- `String.prototype.trim`: drop whitespace from both ends. -/
def trimStr (l : List Char) : List Char :=
  ((l.dropWhile isWs).reverse.dropWhile isWs).reverse

mutual

/-- State of `jsSplit` while inside a token: `acc` holds the reversed token
read so far. Hitting a separator character emits the token and switches to
`splitSkip`, which consumes the rest of the separator run. -/
def splitGo (p : Char → Bool) : List Char → List Char → List (List Char)
  | [], acc => [acc.reverse]
  | c :: r, acc => if p c then acc.reverse :: splitSkip p r else splitGo p r (c :: acc)

/-- State of `jsSplit` while inside a separator run. A separator run at the
very end of the string contributes a trailing empty field, as JavaScript
`split` does. -/
def splitSkip (p : Char → Bool) : List Char → List (List Char)
  | [] => [[]]
  | c :: r => if p c then splitSkip p r else splitGo p r [c]

end

/-- JavaScript `str.split(/X+/)` where `p` recognises the characters of the
class `X`: maximal runs of separator characters split the string, and a run
touching either end of the string contributes an empty field there
(`" a".split(/\s+/) = ["", "a"]`). -/
def jsSplit (p : Char → Bool) (l : List Char) : List (List Char) :=
  splitGo p l []

/-- `str.split(/\s+/)`. -/
def jsSplitWs (l : List Char) : List (List Char) := jsSplit isWs l

/-- `str.split(/\s+/).filter(w => w.length > 0)`, the word list used by the
caption chunkers. -/
def wordsOf (l : List Char) : List (List Char) :=
  (jsSplitWs l).filter (fun w => w.length != 0)

/-- `arr.join(sep)` for a one-character separator. -/
def joinSep (sep : Char) : List (List Char) → List Char
  | [] => []
  | [w] => w
  | w :: w' :: ws => w ++ sep :: joinSep sep (w' :: ws)

/-- `arr.join(" ")`. -/
def joinSpace : List (List Char) → List Char := joinSep ' '

/-- `haystack.includes(needle)`. -/
def containsSub (hay sub : List Char) : Bool :=
  hay.tails.any (fun t => sub.isPrefixOf t)

/-- Number of (possibly overlapping) occurrences of `sub` in `hay`; used to
state the per-occurrence reading of the scoring claim. -/
def countOccurrences (hay sub : List Char) : ℕ :=
  (hay.tails.filter (fun t => sub.isPrefixOf t)).length

/-- Worker for `replaceAll`: the `ℕ` argument counts input characters still to
be skipped because they belong to an already-replaced match. -/
def replaceGo (pat rep : List Char) : List Char → ℕ → List Char
  | [], _ => []
  | _ :: r, k + 1 => replaceGo pat rep r k
  | c :: r, 0 =>
    if pat.isPrefixOf (c :: r) then rep ++ replaceGo pat rep r (pat.length - 1)
    else c :: replaceGo pat rep r 0

/-- JavaScript `str.replace(/pat/g, rep)` for a literal pattern: left-to-right,
non-overlapping, the replacement text is not rescanned. -/
def replaceAll (l pat rep : List Char) : List Char :=
  replaceGo pat rep l 0

/-- The apostrophe character, written by code point to keep it out of
literals. -/
def apos : Char := Char.ofNat 39

/-- `decodeHtmlEntities` from `src/unnamed/part_008` (also duplicated in
`CaptionOverlay.tsx`): nine chained global replacements. -/
def decodeHtmlEntities (text : List Char) : List Char :=
  let t1 := replaceAll text "&gt;".toList ">".toList
  let t2 := replaceAll t1 "&lt;".toList "<".toList
  let t3 := replaceAll t2 "&amp;".toList "&".toList
  let t4 := replaceAll t3 "&quot;".toList "\"".toList
  let t5 := replaceAll t4 "&#39;".toList [apos]
  let t6 := replaceAll t5 "&apos;".toList [apos]
  let t7 := replaceAll t6 "&#x27;".toList [apos]
  let t8 := replaceAll t7 "&#x2F;".toList "/".toList
  replaceAll t8 "&nbsp;".toList " ".toList

/-- Decimal digits of `n`, most significant first; the first argument is fuel,
always called with fuel `> n` so the zero-fuel case is never reached. -/
def digitsGo : ℕ → ℕ → List ℕ
  | 0, _ => []
  | fuel + 1, n => if n < 10 then [n] else digitsGo fuel (n / 10) ++ [n % 10]

/-- Decimal digit list of a natural number (`String(n)` for `n ≥ 0`). -/
def natDigits10 (n : ℕ) : List ℕ := digitsGo (n + 1) n

/-- `String(n)` as characters. -/
def natDigitChars (n : ℕ) : List Char :=
  (natDigits10 n).map (fun d => Char.ofNat (48 + d))

/-- `str.padStart(k, "0")`. -/
def padZeros (k : ℕ) (l : List Char) : List Char :=
  List.replicate (k - l.length) '0' ++ l

/-- `arr.slice(-n)` on a word array: the last `n` elements. -/
def takeLastW (n : ℕ) (l : List (List Char)) : List (List Char) :=
  l.drop (l.length - n)

/-- `arr.slice(a, b)` with JavaScript index semantics: negative indices count
from the end, indices are clamped to `[0, length]`. -/
def jsSlice {α : Type} (l : List α) (a b : ℤ) : List α :=
  let n : ℤ := l.length
  let s : ℤ := if a < 0 then max (n + a) 0 else min a n
  let e : ℤ := if b < 0 then max (n + b) 0 else min b n
  (l.drop s.toNat).take (e - s).toNat

/-- `TranscriptSegment` from `src/app/api/shorts/generate/route.ts` (the same
shape is used for raw cues, normalized segments and chunked captions). -/
structure TranscriptSegment where
  start : ℚ
  «end» : ℚ
  text : List Char
  deriving DecidableEq

/-- The inner overlap search of `parseVTT` (route.ts lines 224–233): the
largest `j ≤ min(|lastWords|, |currentWords|)` such that the last `j` words of
`lastText` and the first `j` words of the cue, joined with spaces and
lower-cased, coincide; `0` if none. The source loops `j` downwards and breaks
at the first match, which is this recursion. -/
def findOverlapGo (lastW curW : List (List Char)) : ℕ → ℕ
  | 0 => 0
  | j + 1 =>
    if lowerL (joinSpace (takeLastW (j + 1) lastW)) =
        lowerL (joinSpace (curW.take (j + 1))) then j + 1
    else findOverlapGo lastW curW j

/-- `overlapStart` computed by `parseVTT` for one cue. -/
def findOverlap (lastW curW : List (List Char)) : ℕ :=
  findOverlapGo lastW curW (min lastW.length curW.length)

/-- The `newText` computed by pass 2 of `parseVTT` for one cue (route.ts
lines 213–238): the part of the cue's text left after removing the overlap
with the previous cue's full text `lastText`. -/
def dedupeNewText (lastText : List Char) (cue : TranscriptSegment) : List Char :=
  if lastText ≠ [] ∧ (lowerL lastText).isPrefixOf (lowerL cue.text) then
    trimStr (cue.text.drop lastText.length)
  else if lastText ≠ [] then
    let lastWords := jsSplitWs lastText
    let currentWords := jsSplitWs cue.text
    let overlapStart := findOverlap lastWords currentWords
    if 0 < overlapStart then joinSpace (currentWords.drop overlapStart) else cue.text
  else cue.text

/-- Pass 2 of `parseVTT` (route.ts lines 208–250): walk the cues keeping
`lastText` (the previous cue's full text); emit a segment carrying the cue's
own times and only the new portion of its text, skipping cues whose new text
has length `≤ 1`. -/
def parseVTTDedupe (lastText : List Char) : List TranscriptSegment → List TranscriptSegment
  | [] => []
  | cue :: rest =>
    let newText := dedupeNewText lastText cue
    (if newText ≠ [] ∧ 1 < newText.length then
      [{ start := cue.start, «end» := cue.«end», text := newText }] else []) ++
      parseVTTDedupe cue.text rest

/-- Pass 3 of `parseVTT` (route.ts lines 252–273), the running state being
`currentSegment`: merge the next segment into the current one when the gap is
below `0.5` s and the current text has fewer than 8 (whitespace-split)
words. -/
def parseVTTMergeGo (cur : TranscriptSegment) : List TranscriptSegment → List TranscriptSegment
  | [] => [cur]
  | seg :: rest =>
    if seg.start - cur.«end» < 1 / 2 ∧ (jsSplitWs cur.text).length < 8 then
      parseVTTMergeGo { start := cur.start, «end» := seg.«end»,
                        text := cur.text ++ ' ' :: seg.text } rest
    else cur :: parseVTTMergeGo seg rest

/-- The merge pass on a whole segment list. -/
def parseVTTMerge : List TranscriptSegment → List TranscriptSegment
  | [] => []
  | seg :: rest => parseVTTMergeGo seg rest

/-- Passes 2 and 3 of `parseVTT`: the normalized segment list produced from
the cleaned cue list (pass 1, the external VTT parse plus `cleanVTTText`,
produces that cue list). -/
def normalizeCues (cues : List TranscriptSegment) : List TranscriptSegment :=
  parseVTTMerge (parseVTTDedupe [] cues)

/-- The fixed placeholder pool of `generateSegmentsFromDuration`. -/
def placeholderTexts : List (List Char) :=
  [ "This is an engaging moment from the video that captures attention.".toList
  , "Key point being discussed here with important information.".toList
  , "Interesting content that viewers would want to see.".toList
  , "Valuable insight shared in this segment of the video.".toList
  , "Compelling moment that makes for great short-form content.".toList
  , "Highlight from the video with shareable content.".toList ]

/-- The loop of `generateSegmentsFromDuration`
(`for (let i = 0; i < duration; i += 15)`), written with fuel so that it is
structurally recursive; `gsLoop_fuel_irrel` below shows the result does not
depend on the fuel once the fuel covers the remaining iterations, which the
top-level call arranges. -/
def gsLoop (duration : ℚ) : ℕ → ℕ → List TranscriptSegment
  | 0, _ => []
  | fuel + 1, i =>
    if (i : ℚ) < duration then
      { start := (i : ℚ), «end» := min ((i : ℚ) + 15) duration,
        text := placeholderTexts.getD (i / 15 % placeholderTexts.length) [] } ::
        gsLoop duration fuel (i + 15)
    else []

/-- `generateSegmentsFromDuration` (route.ts lines 282–304): 15-second
segments covering `[0, duration]`, text drawn cyclically from
`placeholderTexts`. -/
def generateSegmentsFromDuration (duration : ℚ) : List TranscriptSegment :=
  gsLoop duration (⌈duration / 15⌉).toNat 0

/-- The engagement keyword list of `scoreClip` (route.ts lines 396–401). -/
def engagementWords : List (List Char) :=
  [ "amazing".toList, "incredible".toList, "important".toList, "secret".toList
  , "tip".toList, "trick".toList
  , "how to".toList, "why".toList, "best".toList, "top".toList, "must".toList
  , "need".toList, "should".toList
  , "learn".toList, "discover".toList, "reveal".toList, "truth".toList
  , "fact".toList, "actually".toList
  , "surprising".toList, "shocking".toList, "crazy".toList, "insane".toList
  , "game changer".toList ]

/-- JavaScript `[.!?]` character class. -/
def isSentencePunct (c : Char) : Bool :=
  c = '.' || c = '!' || c = '?'

/-- `scoreClip` (route.ts lines 391–424), written as the sum of its five
sequential `score += …` contributions. -/
def scoreClip (text : List Char) (duration : ℚ) : ℚ :=
  let lowerText := lowerL text
  let keywordScore : ℚ :=
    engagementWords.foldl (fun sc w => if containsSub lowerText w then sc + 10 else sc) 0
  let questionScore : ℚ := if containsSub text "?".toList then 15 else 0
  let sentences := (jsSplit isSentencePunct text).filter (fun s => 10 < (trimStr s).length)
  let sentenceScore : ℚ := (sentences.length : ℚ) * 5
  let durationScore : ℚ := max 0 (20 - |duration - 45|)
  let wordCount := (jsSplitWs text).length
  let wordCountScore : ℚ := if 50 ≤ wordCount ∧ wordCount ≤ 150 then 15 else 0
  keywordScore + questionScore + sentenceScore + durationScore + wordCountScore

/-- The per-occurrence reading of the scoring claim (each occurrence of a
keyword adds 10, repeats not deduplicated); only the keyword component differs
from `scoreClip`. -/
def scoreClipPerOccurrence (text : List Char) (duration : ℚ) : ℚ :=
  let lowerText := lowerL text
  let keywordScore : ℚ :=
    engagementWords.foldl (fun sc w => sc + 10 * (countOccurrences lowerText w : ℚ)) 0
  let questionScore : ℚ := if containsSub text "?".toList then 15 else 0
  let sentences := (jsSplit isSentencePunct text).filter (fun s => 10 < (trimStr s).length)
  let sentenceScore : ℚ := (sentences.length : ℚ) * 5
  let durationScore : ℚ := max 0 (20 - |duration - 45|)
  let wordCount := (jsSplitWs text).length
  let wordCountScore : ℚ := if 50 ≤ wordCount ∧ wordCount ≤ 150 then 15 else 0
  keywordScore + questionScore + sentenceScore + durationScore + wordCountScore

/-- A scored clip window of `findBestClips` (route.ts line 314). -/
structure ClipCandidate where
  start : ℚ
  «end» : ℚ
  text : List Char
  score : ℚ
  startIdx : ℕ
  endIdx : ℕ
  deriving DecidableEq

/-- Inner loop of the window search (route.ts lines 321–340): expand `j` over
the remaining segments, accumulating `windowText` and `windowEnd`, emitting a
candidate whenever the duration lies in `[30, 60]` and breaking once it
exceeds `60`. -/
def windowInner (startT : ℚ) (i : ℕ) : List Char → ℕ → List TranscriptSegment → List ClipCandidate
  | _, _, [] => []
  | windowText, j, seg :: rest =>
    let windowText := windowText ++ ' ' :: seg.text
    let windowEnd := seg.«end»
    let windowDuration := windowEnd - startT
    (if 30 ≤ windowDuration ∧ windowDuration ≤ 60 then
      [{ start := startT, «end» := windowEnd, text := trimStr windowText,
         score := scoreClip windowText windowDuration, startIdx := i, endIdx := j }]
     else []) ++
      (if 60 < windowDuration then [] else windowInner startT i windowText (j + 1) rest)

/-- Outer loop of the window search (route.ts lines 317–341): one inner scan
per start index. -/
def windowOuter : ℕ → List TranscriptSegment → List ClipCandidate
  | _, [] => []
  | i, seg :: rest => windowInner seg.start i [] i (seg :: rest) ++ windowOuter (i + 1) rest

/-- All scored windows collected by `findBestClips` before selection. -/
def scoredWindows (transcript : List TranscriptSegment) : List ClipCandidate :=
  windowOuter 0 transcript

/-- The overlap test of the selection loop (route.ts lines 349–354), `w`
being the candidate under consideration and `s` an already selected one. -/
def selOverlaps (w s : ClipCandidate) : Bool :=
  (decide (s.start ≤ w.start) && decide (w.start < s.«end»)) ||
  (decide (s.start < w.«end») && decide (w.«end» ≤ s.«end»)) ||
  (decide (w.start ≤ s.start) && decide (s.«end» ≤ w.«end»))

/-- Greedy selection (route.ts lines 346–360): walk the score-sorted list,
keep a candidate unless it overlaps one already kept, stop once 5 are kept. -/
def selGo : List ClipCandidate → List ClipCandidate → List ClipCandidate
  | acc, [] => acc
  | acc, w :: rest =>
    if acc.any (fun s => selOverlaps w s) then selGo acc rest
    else
      let acc' := acc ++ [w]
      if 5 ≤ acc'.length then acc' else selGo acc' rest

/-- The selector of `findBestClips` (route.ts lines 343–363): sort by score
descending, select greedily, then re-sort the selection by start time. -/
def selectWindows (cands : List ClipCandidate) : List ClipCandidate :=
  let sorted := cands.mergeSort (fun a b => decide (b.score ≤ a.score))
  let selected := selGo [] sorted
  selected.mergeSort (fun a b => decide (a.start ≤ b.start))

/-- Word grouping of the chunk loop in `chunkSegments` (part_008 lines
81–91): consecutive groups of `maxWords` words. The counter is the remaining
capacity of the group being filled, so the recursion is structural on the
word list. -/
def chunkGo (maxWords : ℕ) : List (List Char) → List (List Char) → ℕ → List (List (List Char))
  | [], acc, _ => if acc = [] then [] else [acc.reverse]
  | w :: r, acc, 0 => acc.reverse :: chunkGo maxWords r [w] (maxWords - 1)
  | w :: r, acc, k + 1 => chunkGo maxWords r (w :: acc) k

/-- `words.slice(i, i + maxWords)` for `i = 0, maxWords, 2*maxWords, …`. -/
def chunkGroups (maxWords : ℕ) (words : List (List Char)) : List (List (List Char)) :=
  chunkGo maxWords words [] maxWords

/-- Emission step of the chunk loop in `chunkSegments`: group `g` (whose first
word has index `i`, `i` advancing by `maxWords` per group) becomes a caption
spanning `[start + i*timePerWord, min(end, start + (i+len)*timePerWord)]`. -/
def emitChunks (st en tpw : ℚ) (maxWords : ℕ) : ℕ → List (List (List Char)) → List TranscriptSegment
  | _, [] => []
  | i, g :: gs =>
    { start := st + (i : ℚ) * tpw,
      «end» := min en (st + ((i : ℚ) + (g.length : ℚ)) * tpw),
      text := joinSpace g } :: emitChunks st en tpw maxWords (i + maxWords) gs

/-- `chunkSegments` on one segment (the body of its `for` loop, part_008
lines 58–92). -/
def chunkOneSeg (maxWords : ℕ) (seg : TranscriptSegment) : List TranscriptSegment :=
  let cleanText := trimStr (decodeHtmlEntities seg.text)
  if cleanText = [] then []
  else
    let words := wordsOf cleanText
    if words.length ≤ maxWords then
      [{ start := seg.start, «end» := seg.«end», text := cleanText }]
    else
      let segDuration := seg.«end» - seg.start
      let timePerWord := segDuration / (words.length : ℚ)
      emitChunks seg.start seg.«end» timePerWord maxWords 0 (chunkGroups maxWords words)

/-- `chunkSegments` (part_008 lines 51–95). Its `clipStart` parameter is
unused by the source as well. -/
def chunkSegments (segments : List TranscriptSegment) (maxWords : ℕ)
    (_clipStart : ℚ) : List TranscriptSegment :=
  segments.flatMap (chunkOneSeg maxWords)

/-- `getChunkedCaption` (CaptionOverlay.tsx lines 119–142): the interactive
preview lookup of the caption chunk active at `currentTime`. `Math.floor` of
the two real-number divisions is modelled as `⌊·⌋` of the exact rational
quotients. -/
def getChunkedCaption (segment : TranscriptSegment) (currentTime : ℚ)
    (maxWords : ℕ) : Option (List Char) :=
  let cleanText := trimStr (decodeHtmlEntities segment.text)
  if cleanText = [] then none
  else
    let words := wordsOf cleanText
    if words.length = 0 then none
    else if words.length ≤ maxWords then some cleanText
    else
      let segDuration := segment.«end» - segment.start
      let timePerWord := segDuration / (words.length : ℚ)
      let timeIntoSegment := currentTime - segment.start
      let wordIndex : ℤ := ⌊timeIntoSegment / timePerWord⌋
      let chunkIndex : ℤ := ⌊(wordIndex : ℚ) / (maxWords : ℚ)⌋
      let startWord : ℤ := chunkIndex * maxWords
      some (joinSpace (jsSlice words startWord (startWord + maxWords)))

/-- JavaScript `a % n` for the nonnegative operands `toSrtTime` feeds it. -/
def jsMod (a n : ℚ) : ℚ := a - n * (⌊a / n⌋ : ℚ)

/-- `Math.floor(seconds / 3600)` in `toSrtTime`. -/
def srtHours (seconds : ℚ) : ℕ := (⌊seconds / 3600⌋).toNat

/-- `Math.floor((seconds % 3600) / 60)` in `toSrtTime`. -/
def srtMinutes (seconds : ℚ) : ℕ := (⌊jsMod seconds 3600 / 60⌋).toNat

/-- `Math.floor(seconds % 60)` in `toSrtTime`. -/
def srtSecs (seconds : ℚ) : ℕ := (⌊jsMod seconds 60⌋).toNat

/-- `Math.round((seconds % 1) * 1000)` in `toSrtTime`. -/
def srtMs (seconds : ℚ) : ℕ := (round (jsMod seconds 1 * 1000) : ℤ).toNat

/-- `toSrtTime` (part_008 lines 28–34): `HH:MM:SS,mmm` with the four fields
zero-padded to widths 2, 2, 2 and 3. The `.toNat` coercions are exact because
`generateSrt` only passes values clamped to `≥ 0`. -/
def toSrtTime (seconds : ℚ) : List Char :=
  padZeros 2 (natDigitChars (srtHours seconds)) ++ ':' ::
    (padZeros 2 (natDigitChars (srtMinutes seconds)) ++ ':' ::
      (padZeros 2 (natDigitChars (srtSecs seconds)) ++ ',' ::
        padZeros 3 (natDigitChars (srtMs seconds))))

/-- One kept subtitle block of `generateSrt`, before rendering to text:
`idx` is the 1-based position of the chunk in the chunked list (the `i` of
`chunked.map((seg, i) => …)`), `s`/`e` the clip-relative clamped times. -/
structure SrtEntry where
  idx : ℕ
  s : ℚ
  e : ℚ
  text : List Char
  deriving DecidableEq

/-- The `chunked.map((seg, i) => …).filter(Boolean)` of `generateSrt`
(part_008 lines 106–115): entries with duration `< 0.1` s or blank text are
dropped, but the running index `i` keeps counting dropped chunks. -/
def srtGo (clipStart : ℚ) : ℕ → List TranscriptSegment → List SrtEntry
  | _, [] => []
  | i, seg :: rest =>
    let s := max 0 (seg.start - clipStart)
    let e := max 0 (seg.«end» - clipStart)
    (if e - s < 1 / 10 ∨ trimStr seg.text = [] then []
     else [{ idx := i + 1, s := s, e := e, text := seg.text }]) ++
      srtGo clipStart (i + 1) rest

/-- The subtitle blocks emitted by `generateSrt` for the given segments. -/
def srtEntries (segments : List TranscriptSegment) (clipStart : ℚ)
    (maxWords : ℕ) : List SrtEntry :=
  srtGo clipStart 0 (chunkSegments segments maxWords clipStart)

/-- One rendered block: `` `${i + 1}\n${toSrtTime s} --> ${toSrtTime e}\n${text}\n` ``. -/
def srtBlock (en : SrtEntry) : List Char :=
  natDigitChars en.idx ++ '\n' ::
    (toSrtTime en.s ++ " --> ".toList ++ toSrtTime en.e ++ '\n' :: (en.text ++ ['\n']))

/-- `generateSrt` (part_008 lines 98–117): the rendered blocks joined with
`"\n"` (each block already ends in a newline, so blocks are separated by a
blank line). -/
def generateSrt (segments : List TranscriptSegment) (clipStart : ℚ)
    (maxWords : ℕ) : List Char :=
  joinSep '\n' ((srtEntries segments clipStart maxWords).map srtBlock)

/-- `CaptionStyleConfig` as read by the export route (part_008 lines 17–25):
`maxWords` is optional in the interface; the numeric fields are modelled as
`ℚ` since nothing validates them. -/
structure CaptionStyleConfig where
  fontFamily : List Char
  fontSize : ℚ
  fontWeight : List Char
  color : List Char
  backgroundColor : List Char
  position : List Char
  maxWords : Option ℚ
  deriving DecidableEq

/-- `captionStyle?.fontSize || 24` (part_008 line 217): the submitted value is
used unchanged unless it is absent or `0` (JavaScript falsy). -/
def effectiveFontSize (captionStyle : Option CaptionStyleConfig) : ℚ :=
  match captionStyle with
  | none => 24
  | some st => if st.fontSize = 0 then 24 else st.fontSize

/-- `captionStyle?.maxWords || 5` (part_008 line 211). -/
def effectiveMaxWords (captionStyle : Option CaptionStyleConfig) : ℚ :=
  match captionStyle with
  | none => 5
  | some st =>
    match st.maxWords with
    | none => 5
    | some v => if v = 0 then 5 else v

/-- The `MarginV` computation of the export route (part_008 lines 222–225). -/
def styleMarginV (position : List Char) : ℕ :=
  if position = "top".toList then 400
  else if position = "middle".toList then 200
  else 50

/-- `hexToAssBgr` (part_008 lines 120–125): `#RRGGBB` to ASS `&H00BBGGRR&`. -/
def hexToAssBgr (hex : List Char) : List Char :=
  let r := jsSlice hex 1 3
  let g := jsSlice hex 3 5
  let b := jsSlice hex 5 7
  "&H00".toList ++ b ++ g ++ r ++ "&".toList

/-- Clamping to `[lo, hi]`, as the specification describes for style values;
used to state (and refute) the clamping claim. -/
def clampTo (lo hi v : ℚ) : ℚ := max lo (min hi v)

/-- A submitted style whose `fontSize` (100) and `maxWords` (50) are far out
of the documented ranges `[12, 48]` and `[2, 10]`. -/
def outOfRangeStyle : CaptionStyleConfig :=
  { fontFamily := "Inter".toList, fontSize := 100, fontWeight := "bold".toList,
    color := "#FFFFFF".toList, backgroundColor := "#000000".toList,
    position := "bottom".toList, maxWords := some 50 }

/-!
## Theorems

Helper lemmas first, then one theorem per claim (with its witness or
counterexample where required).
-/

/-- The keyword loop of `scoreClip` adds `10` once per keyword that tests
positive, i.e. it computes `10 * (number of present keywords)`. -/
theorem foldl_if_ten (p : List Char → Bool) :
    ∀ (l : List (List Char)) (a : ℚ),
      l.foldl (fun sc w => if p w then sc + 10 else sc) a =
        a + 10 * ((l.filter p).length : ℚ)
  | [], a => by simp
  | w :: l, a => by
    by_cases hw : p w <;>
      simp [hw, foldl_if_ten p l, List.filter_cons] <;> push_cast <;> ring

/-- C3: the claim is false on the code: in `"amazing amazing"` the keyword
`"amazing"` occurs twice, but `scoreClip` awards the keyword bonus once
(total 35), not per occurrence (which would give 45). -/
theorem C3_counterexample :
    countOccurrences (lowerL "amazing amazing".toList) "amazing".toList = 2 ∧
    scoreClip "amazing amazing".toList 45 = 35 ∧
    scoreClipPerOccurrence "amazing amazing".toList 45 = 45 ∧
    (35 : ℚ) ≠ 45 := by decide

/-- C3 (amended): `scoreClip` adds 10 points for each engagement keyword that
occurs at least once as a case-insensitive substring of the text; repeated
occurrences of the same keyword do not add more. The remaining summands are
the question, sentence, duration-fit and word-count bonuses. -/
theorem C3_keyword_scoring (text : List Char) (duration : ℚ) :
    scoreClip text duration =
      10 * ((engagementWords.filter (fun w => containsSub (lowerL text) w)).length : ℚ) +
        ((if containsSub text "?".toList then (15 : ℚ) else 0) +
          (((jsSplit isSentencePunct text).filter
              (fun s => 10 < (trimStr s).length)).length : ℚ) * 5 +
          max 0 (20 - |duration - 45|) +
          (if 50 ≤ (jsSplitWs text).length ∧ (jsSplitWs text).length ≤ 150
            then (15 : ℚ) else 0)) := by
  simp only [scoreClip]
  rw [foldl_if_ten]
  ring

/-- C9: the claim is false on the code: a submitted `fontSize` of 100 is used
as-is by the export route, not clamped to the nearest bound 48. -/
theorem C9_counterexample :
    effectiveFontSize (some outOfRangeStyle) = 100 ∧
    clampTo 12 48 100 = 48 ∧ (100 : ℚ) ≠ 48 := by decide

/-- C9 (amended): the export route clamps nothing: any submitted nonzero
`fontSize` and nonzero `maxWords` are passed through unchanged to subtitle
rendering, however far outside `[12, 48]` and `[2, 10]`; only absent or zero
(JavaScript-falsy) values are replaced by the defaults 24 and 5, and no style
value causes the export to be rejected (the resolution is total). -/
theorem C9_style_passthrough (cfg : CaptionStyleConfig) (hfs : cfg.fontSize ≠ 0) :
    effectiveFontSize (some cfg) = cfg.fontSize ∧
    ∀ v, cfg.maxWords = some v → v ≠ 0 → effectiveMaxWords (some cfg) = v := by
  refine ⟨by simp [effectiveFontSize, hfs], fun v hv hv0 => ?_⟩
  simp [effectiveMaxWords, hv, hv0]

/-- Witness for `C9_style_passthrough` at the out-of-range style. -/
theorem C9_style_passthrough_witness :
    outOfRangeStyle.fontSize ≠ 0 ∧
    (effectiveFontSize (some outOfRangeStyle) = outOfRangeStyle.fontSize ∧
      ∀ v, outOfRangeStyle.maxWords = some v → v ≠ 0 →
        effectiveMaxWords (some outOfRangeStyle) = v) :=
  ⟨by decide, C9_style_passthrough outOfRangeStyle (by decide)⟩

/-- C2: the claim is false on the code: the full normalization (including the
merge pass) turns the two cues into a single segment, because the extracted
segments `(0, 2, "hello world")` and `(1.8, 4, "today")` have gap
`-0.2 < 0.5` and `"hello world"` has fewer than 8 words, so they are
merged. -/
theorem C2_counterexample :
    (normalizeCues
        [ { start := 0, «end» := 2, text := "hello world".toList }
        , { start := 9/5, «end» := 4, text := "hello world today".toList } ]).map
        TranscriptSegment.text =
      ["hello world today".toList] ∧
    ["hello world today".toList] ≠ ["hello world".toList, "today".toList] := by decide

/-- C2 (amended): the progressive-overlap extraction pass alone produces
exactly the two segments `(0, 2, "hello world")` and `(1.8, 4, "today")` (the
second cue contributes only the suffix after removing the first cue's text as
a case-insensitive prefix); the final merge pass then combines them into the
single segment `(0, 4, "hello world today")`. -/
theorem C2_progressive_overlap :
    parseVTTDedupe []
        [ { start := 0, «end» := 2, text := "hello world".toList }
        , { start := 9/5, «end» := 4, text := "hello world today".toList } ] =
      [ { start := 0, «end» := 2, text := "hello world".toList }
      , { start := 9/5, «end» := 4, text := "today".toList } ] ∧
    normalizeCues
        [ { start := 0, «end» := 2, text := "hello world".toList }
        , { start := 9/5, «end» := 4, text := "hello world today".toList } ] =
      [ { start := 0, «end» := 4, text := "hello world today".toList } ] := by decide

/-- Membership in a conditional singleton. -/
theorem mem_ite_singleton {α : Type} {P : Prop} [Decidable P] {x s : α}
    (h : s ∈ if P then [x] else ([] : List α)) : P ∧ s = x := by
  split at h
  · exact ⟨by assumption, List.mem_singleton.1 h⟩
  · simp at h

/-- The start times of the extraction pass's output form a sublist of the
cues' start times. -/
theorem dedupe_starts_sublist (lastText : List Char) (cues : List TranscriptSegment) :
    ((parseVTTDedupe lastText cues).map TranscriptSegment.start).Sublist
      (cues.map TranscriptSegment.start) := by
  induction cues generalizing lastText with
  | nil => simp [parseVTTDedupe]
  | cons cue rest ih =>
    rw [parseVTTDedupe]
    simp only [List.map_append, List.map_cons]
    split
    · simp only [List.map_cons, List.map_nil, List.singleton_append]
      exact List.Sublist.cons₂ _ (ih cue.text)
    · simp only [List.map_nil, List.nil_append]
      exact List.Sublist.cons _ (ih cue.text)

/-- Every extracted segment has text of length `> 1`. -/
theorem dedupe_text_len (lastText : List Char) (cues : List TranscriptSegment) :
    ∀ s ∈ parseVTTDedupe lastText cues, 1 < s.text.length := by
  induction cues generalizing lastText with
  | nil => simp [parseVTTDedupe]
  | cons cue rest ih =>
    intro s hs
    rw [parseVTTDedupe] at hs
    rcases List.mem_append.1 hs with h | h
    · rcases mem_ite_singleton h with ⟨hgood, rfl⟩
      exact hgood.2
    · exact ih cue.text s h

/-- Every start time in the merge pass's output is the running segment's
start or one of the input segments' starts. -/
theorem mergeGo_mem_start (l : List TranscriptSegment) :
    ∀ cur, ∀ s ∈ parseVTTMergeGo cur l,
      s.start = cur.start ∨ s.start ∈ l.map TranscriptSegment.start := by
  induction l with
  | nil => intro cur s hs; rw [parseVTTMergeGo] at hs; simp at hs; simp [hs]
  | cons seg rest ih =>
    intro cur s hs
    rw [parseVTTMergeGo] at hs
    split at hs
    · rcases ih _ s hs with h | h
      · exact Or.inl h
      · exact Or.inr (by simp [h])
    · rcases List.mem_cons.1 hs with rfl | h
      · exact Or.inl rfl
      · rcases ih _ s h with h' | h'
        · exact Or.inr (by simp [h'])
        · exact Or.inr (by simp [h'])

/-- The merge pass preserves sortedness by start time: if the running segment
precedes all inputs and the inputs are sorted, the output is sorted. -/
theorem mergeGo_sorted (l : List TranscriptSegment) :
    ∀ cur, (cur :: l).Pairwise (fun a b => a.start ≤ b.start) →
      (parseVTTMergeGo cur l).Pairwise (fun a b => a.start ≤ b.start) := by
  induction l with
  | nil => intro cur _; rw [parseVTTMergeGo]; simp
  | cons seg rest ih =>
    intro cur h
    rw [parseVTTMergeGo]
    rcases List.pairwise_cons.1 h with ⟨hcur, htail⟩
    rcases List.pairwise_cons.1 htail with ⟨hseg, hrest⟩
    split
    · refine ih _ (List.pairwise_cons.2 ⟨?_, hrest⟩)
      intro b hb
      exact hcur b (List.mem_cons_of_mem _ hb)
    · refine List.pairwise_cons.2 ⟨?_, ih _ htail⟩
      intro b hb
      rcases mergeGo_mem_start rest seg b hb with h' | h'
      · rw [h']; exact hcur seg (List.mem_cons_self _ _)
      · rcases List.mem_map.1 h' with ⟨sg, hsg, hstart⟩
        rw [← hstart]
        exact hcur sg (List.mem_cons_of_mem _ hsg)

/-- The merge pass preserves the text-length invariant (merging only
concatenates). -/
theorem mergeGo_text_len (l : List TranscriptSegment) :
    ∀ cur, 1 < cur.text.length → (∀ s ∈ l, 1 < s.text.length) →
      ∀ s ∈ parseVTTMergeGo cur l, 1 < s.text.length := by
  induction l with
  | nil =>
    intro cur hcur _ s hs
    rw [parseVTTMergeGo] at hs; simp at hs; simpa [hs] using hcur
  | cons seg rest ih =>
    intro cur hcur hl s hs
    rw [parseVTTMergeGo] at hs
    split at hs
    · refine ih _ ?_ (fun x hx => hl x (List.mem_cons_of_mem _ hx)) s hs
      simpa using Nat.lt_of_lt_of_le hcur (by simp)
    · rcases List.mem_cons.1 hs with rfl | h
      · exact hcur
      · exact ih _ (hl seg (List.mem_cons_self _ _))
          (fun x hx => hl x (List.mem_cons_of_mem _ hx)) s h

/-- C1: the claim is false on the code: for the ordered cue list below (a
9-word cue followed by a progressive extension of it), the normalized output
is the two segments `(0, 2, "a b c d e f g h i")` and `(1.8, 4, "xx")`, which
overlap in time (`1.8 < 2`) because the merge pass refuses to merge into a
segment of 8 or more words. -/
theorem C1_counterexample :
    ([ { start := 0, «end» := 2, text := "a b c d e f g h i".toList }
     , { start := 9/5, «end» := 4,
         text := "a b c d e f g h i xx".toList } ] :
        List TranscriptSegment).Pairwise (fun a b => a.start ≤ b.start) ∧
    normalizeCues
        [ { start := 0, «end» := 2, text := "a b c d e f g h i".toList }
        , { start := 9/5, «end» := 4, text := "a b c d e f g h i xx".toList } ] =
      [ { start := 0, «end» := 2, text := "a b c d e f g h i".toList }
      , { start := 9/5, «end» := 4, text := "xx".toList } ] ∧
    ¬ (normalizeCues
        [ { start := 0, «end» := 2, text := "a b c d e f g h i".toList }
        , { start := 9/5, «end» := 4, text := "a b c d e f g h i xx".toList } ]).Pairwise
        (fun a b => a.«end» ≤ b.start) := by decide

/-- C1 (amended): for every cue list ordered by start time, the normalized
segment list is time-ordered (starts non-decreasing) and every segment's text
is non-empty (indeed of length `> 1`); mutual non-overlap does NOT hold in
general (see the counterexample). -/
theorem C1_normalize_ordered (cues : List TranscriptSegment)
    (h : cues.Pairwise (fun a b => a.start ≤ b.start)) :
    (normalizeCues cues).Pairwise (fun a b => a.start ≤ b.start) ∧
    ∀ s ∈ normalizeCues cues, s.text ≠ [] ∧ 1 < s.text.length := by
  have hsorted : (parseVTTDedupe [] cues).Pairwise (fun a b => a.start ≤ b.start) := by
    have hmap : ((parseVTTDedupe [] cues).map TranscriptSegment.start).Pairwise (· ≤ ·) :=
      List.Pairwise.sublist (dedupe_starts_sublist [] cues) ((List.pairwise_map).2 h)
    exact (List.pairwise_map).1 hmap
  have hlen := dedupe_text_len [] cues
  unfold normalizeCues
  constructor
  · rcases hd : parseVTTDedupe [] cues with _ | ⟨seg, rest⟩
    · simp [parseVTTMerge]
    · rw [parseVTTMerge]
      exact mergeGo_sorted rest seg (hd ▸ hsorted)
  · intro s hs
    have h1 : 1 < s.text.length := by
      rcases hd : parseVTTDedupe [] cues with _ | ⟨seg, rest⟩
      · rw [hd] at hs; simp [parseVTTMerge] at hs
      · rw [hd] at hs; rw [parseVTTMerge] at hs
        have hseg := hlen seg (by rw [hd]; exact List.mem_cons_self _ _)
        have hrest : ∀ x ∈ rest, 1 < x.text.length := fun x hx =>
          hlen x (by rw [hd]; exact List.mem_cons_of_mem _ hx)
        exact mergeGo_text_len rest seg hseg hrest s hs
    exact ⟨fun hnil => by simp [hnil] at h1, h1⟩

/-- Witness for `C1_normalize_ordered` at the two-cue progressive example. -/
theorem C1_normalize_ordered_witness :
    ([ { start := 0, «end» := 2, text := "hello world".toList }
     , { start := 9/5, «end» := 4, text := "hello world today".toList } ] :
        List TranscriptSegment).Pairwise (fun a b => a.start ≤ b.start) ∧
    ((normalizeCues
        [ { start := 0, «end» := 2, text := "hello world".toList }
        , { start := 9/5, «end» := 4, text := "hello world today".toList } ]).Pairwise
        (fun a b => a.start ≤ b.start) ∧
      ∀ s ∈ normalizeCues
          [ { start := 0, «end» := 2, text := "hello world".toList }
          , { start := 9/5, «end» := 4, text := "hello world today".toList } ],
        s.text ≠ [] ∧ 1 < s.text.length) :=
  ⟨by decide, C1_normalize_ordered _ (by decide)⟩

/-- The synthesis loop emits nothing once `i` has reached the duration. -/
theorem gsLoop_stop (d : ℚ) (f i : ℕ) (h : ¬ ((i : ℚ) < d)) : gsLoop d f i = [] := by
  cases f <;> simp [gsLoop, h]

/-- The fuel of `gsLoop` is irrelevant once it covers the remaining
iterations, so the fuelled loop is faithful to the source's `for` loop. -/
theorem gsLoop_fuel_irrel (d : ℚ) :
    ∀ (f g i : ℕ), d ≤ (i : ℚ) + 15 * (f : ℚ) → d ≤ (i : ℚ) + 15 * (g : ℚ) →
      gsLoop d f i = gsLoop d g i := by
  intro f
  induction f with
  | zero =>
    intro g i hf _
    rw [gsLoop_stop d 0 i (by push_cast at hf ⊢; linarith),
      gsLoop_stop d g i (by push_cast at hf ⊢; linarith)]
  | succ f ih =>
    intro g i hf hg
    cases g with
    | zero =>
      rw [gsLoop_stop d _ i (by push_cast at hg ⊢; linarith),
        gsLoop_stop d 0 i (by push_cast at hg ⊢; linarith)]
    | succ g =>
      by_cases h : (i : ℚ) < d
      · rw [gsLoop, gsLoop]
        simp only [h, if_true]
        rw [ih g (i + 15) (by push_cast at hf ⊢; linarith)
          (by push_cast at hg ⊢; linarith)]
      · rw [gsLoop_stop d _ i h, gsLoop_stop d _ i h]

/-- Head of the synthesis loop while the duration is not yet covered. -/
theorem gsLoop_head (d : ℚ) (f i : ℕ) (h : (i : ℚ) < d) (hf : f ≠ 0) :
    ∃ tl, gsLoop d f i =
      { start := (i : ℚ), «end» := min ((i : ℚ) + 15) d,
        text := placeholderTexts.getD (i / 15 % placeholderTexts.length) [] } :: tl := by
  cases f with
  | zero => exact absurd rfl hf
  | succ f =>
    refine ⟨gsLoop d f (i + 15), ?_⟩
    rw [gsLoop]
    simp [h]

/-- Every synthesized segment starts at a multiple of 15, ends at
`min (start + 15, d)` and carries the placeholder text indexed by
`(start / 15) mod 6`. -/
theorem gsLoop_mem (d : ℚ) :
    ∀ (f i : ℕ), 15 ∣ i → ∀ s ∈ gsLoop d f i, ∃ k : ℕ,
      s.start = 15 * (k : ℚ) ∧ s.«end» = min (s.start + 15) d ∧
      s.text = placeholderTexts.getD (k % 6) [] := by
  intro f
  induction f with
  | zero => intro i _ s hs; simp [gsLoop] at hs
  | succ f ih =>
    intro i hdvd s hs
    obtain ⟨k, rfl⟩ := hdvd
    rw [gsLoop] at hs
    split at hs
    · rcases List.mem_cons.1 hs with rfl | h
      · refine ⟨k, ?_, ?_, ?_⟩
        · push_cast; ring
        · simp
        · simp [placeholderTexts, Nat.mul_div_cancel_left k (by norm_num : 0 < 15)]
      · exact ih (15 * k + 15) ⟨k + 1, by ring⟩ s h
    · simp at hs

/-- Consecutive synthesized segments touch: each segment starts where the
previous one ends. -/
theorem gsLoop_chain (d : ℚ) :
    ∀ (f i : ℕ), d ≤ (i : ℚ) + 15 * (f : ℚ) →
      (gsLoop d f i).Chain' (fun a b => b.start = a.«end») := by
  intro f
  induction f with
  | zero => intro i _; simp [gsLoop]
  | succ f ih =>
    intro i hf
    by_cases h : (i : ℚ) < d
    · rw [gsLoop]
      simp only [h, if_true]
      rw [List.chain'_cons']
      constructor
      · intro b hb
        by_cases h2 : ((i + 15 : ℕ) : ℚ) < d
        · have hf0 : f ≠ 0 := by
            rintro rfl
            push_cast at hf h2
            linarith
          obtain ⟨tl, htl⟩ := gsLoop_head d f (i + 15) h2 hf0
          rw [htl] at hb
          simp only [List.head?_cons, Option.mem_def, Option.some.injEq] at hb
          subst hb
          simp only []
          rw [min_eq_left (by push_cast at h2 ⊢; linarith)]
          push_cast
          ring
        · rw [gsLoop_stop d f (i + 15) h2] at hb
          simp at hb
      · exact ih (i + 15) (by push_cast at hf ⊢; linarith)
    · rw [gsLoop_stop d _ i h]
      simp

/-- The last synthesized segment ends exactly at the duration. -/
theorem gsLoop_last (d : ℚ) :
    ∀ (f i : ℕ), d ≤ (i : ℚ) + 15 * (f : ℚ) → (i : ℚ) < d →
      ((gsLoop d f i).getLast?.map TranscriptSegment.«end») = some d := by
  intro f
  induction f with
  | zero => intro i hf h; push_cast at hf; linarith
  | succ f ih =>
    intro i hf h
    rw [gsLoop]
    simp only [h, if_true]
    by_cases h2 : ((i + 15 : ℕ) : ℚ) < d
    · have hf0 : f ≠ 0 := by
        rintro rfl
        push_cast at hf h2
        linarith
      obtain ⟨tl, htl⟩ := gsLoop_head d f (i + 15) h2 hf0
      have := ih (i + 15) (by push_cast at hf ⊢; linarith) h2
      rw [htl] at this ⊢
      rw [List.getLast?_cons_cons]
      exact this
    · rw [gsLoop_stop d f (i + 15) h2]
      simp only [List.getLast?_singleton, Option.map_some]
      have : min ((i : ℚ) + 15) d = d := min_eq_right (by push_cast at h2 ⊢; linarith)
      simp [this]

/-- C10: the claim is false on the code: for duration 20 the synthesized
segments are `(0, 15)` and `(15, 20)` — the last segment is truncated to 5 s
by `Math.min(i + segmentLength, duration)`, so the output is not made of
uniform 15-second segments. -/
theorem C10_counterexample :
    generateSegmentsFromDuration 20 =
      [ { start := 0, «end» := 15, text := placeholderTexts.getD 0 [] }
      , { start := 15, «end» := 20, text := placeholderTexts.getD 1 [] } ] ∧
    ¬ (∀ s ∈ generateSegmentsFromDuration 20, s.«end» - s.start = 15) := by decide

/-- C10 (amended): for every positive duration `d`, fallback synthesis is the
function of `d` alone producing segments that start at successive multiples
of 15 and end at `min(start + 15, d)` (so all segments last 15 s except a
possibly truncated last one), tile `[0, d]` exactly (first start 0, adjacent
segments touching, last end `d`), and carry the placeholder text indexed by
`(start / 15) mod 6`; for `d = 300` this is exactly 20 segments of 15 s
each. -/
theorem C10_fallback_segments (d : ℚ) (hd : 0 < d) :
    generateSegmentsFromDuration d ≠ [] ∧
    (∀ s ∈ generateSegmentsFromDuration d, ∃ k : ℕ,
      s.start = 15 * (k : ℚ) ∧ s.«end» = min (s.start + 15) d ∧
      s.text = placeholderTexts.getD (k % 6) []) ∧
    (generateSegmentsFromDuration d).Chain' (fun a b => b.start = a.«end») ∧
    ((generateSegmentsFromDuration d).head?.map TranscriptSegment.start = some 0) ∧
    ((generateSegmentsFromDuration d).getLast?.map TranscriptSegment.«end» = some d) ∧
    (generateSegmentsFromDuration 300).length = 20 ∧
    (∀ s ∈ generateSegmentsFromDuration 300, s.«end» - s.start = 15) := by
  have hnn : (0 : ℤ) ≤ ⌈d / 15⌉ := by
    have : (0 : ℚ) < d / 15 := by positivity
    exact le_of_lt (Int.ceil_pos.2 this)
  have hcast : ((⌈d / 15⌉.toNat : ℕ) : ℚ) = ((⌈d / 15⌉ : ℤ) : ℚ) := by
    exact_mod_cast congrArg (fun z : ℤ => (z : ℚ)) (Int.toNat_of_nonneg hnn)
  have hle : (d / 15 : ℚ) ≤ ((⌈d / 15⌉ : ℤ) : ℚ) := Int.le_ceil _
  have hfuel : d ≤ ((0 : ℕ) : ℚ) + 15 * (⌈d / 15⌉.toNat : ℚ) := by
    rw [hcast]
    push_cast
    linarith
  have hf0 : (⌈d / 15⌉.toNat : ℕ) ≠ 0 := by
    intro h0
    rw [h0] at hfuel
    push_cast at hfuel
    linarith
  have h0d : ((0 : ℕ) : ℚ) < d := by push_cast; linarith
  obtain ⟨tl, htl⟩ := gsLoop_head d (⌈d / 15⌉.toNat) 0 h0d hf0
  refine ⟨?_, ?_, ?_, ?_, ?_, by decide, by decide⟩
  · rw [generateSegmentsFromDuration, htl]; simp
  · exact fun s hs => gsLoop_mem d _ 0 ⟨0, rfl⟩ s hs
  · exact gsLoop_chain d _ 0 hfuel
  · rw [generateSegmentsFromDuration, htl]
    simp
  · exact gsLoop_last d _ 0 hfuel h0d

/-- Witness for `C10_fallback_segments` at duration 7. -/
theorem C10_fallback_segments_witness :
    (0 : ℚ) < 7 ∧
    (generateSegmentsFromDuration 7 ≠ [] ∧
      (∀ s ∈ generateSegmentsFromDuration 7, ∃ k : ℕ,
        s.start = 15 * (k : ℚ) ∧ s.«end» = min (s.start + 15) 7 ∧
        s.text = placeholderTexts.getD (k % 6) []) ∧
      (generateSegmentsFromDuration 7).Chain' (fun a b => b.start = a.«end») ∧
      ((generateSegmentsFromDuration 7).head?.map TranscriptSegment.start = some 0) ∧
      ((generateSegmentsFromDuration 7).getLast?.map TranscriptSegment.«end» = some 7) ∧
      (generateSegmentsFromDuration 300).length = 20 ∧
      (∀ s ∈ generateSegmentsFromDuration 300, s.«end» - s.start = 15)) :=
  ⟨by decide, C10_fallback_segments 7 (by decide)⟩

/-- If dropping `j` elements uncovers `a`, then `a` is the element at index
`j`. -/
theorem getElem?_of_drop_cons {α : Type} {l : List α} {j : ℕ} {a : α} {t : List α}
    (h : l.drop j = a :: t) : l[j]? = some a := by
  induction j generalizing l with
  | zero => rw [List.drop_zero] at h; simp [h]
  | succ j ih =>
    cases l with
    | nil => simp at h
    | cons x xs =>
      rw [List.drop_succ_cons] at h
      simpa using ih h

/-- Inner-loop invariant of the window search: every candidate emitted while
scanning the suffix `segs.drop j` has duration in `[30, 60]`, start `startT`,
start index `i`, and end equal to the end of the segment at its
`endIdx`. -/
theorem windowInner_spec (segs : List TranscriptSegment) (startT : ℚ) (i : ℕ) :
    ∀ (rest : List TranscriptSegment) (j : ℕ) (acc : List Char),
      segs.drop j = rest → ∀ c ∈ windowInner startT i acc j rest,
        (30 ≤ c.«end» - c.start ∧ c.«end» - c.start ≤ 60) ∧
        c.start = startT ∧ c.startIdx = i ∧
        ∃ s, segs[c.endIdx]? = some s ∧ s.«end» = c.«end» := by
  intro rest
  induction rest with
  | nil => intro j acc _ c hc; simp [windowInner] at hc
  | cons seg rest' ih =>
    intro j acc hdrop c hc
    rw [windowInner] at hc
    rcases List.mem_append.1 hc with h | h
    · rcases mem_ite_singleton h with ⟨hdur, rfl⟩
      exact ⟨hdur, rfl, rfl, seg, getElem?_of_drop_cons hdrop, rfl⟩
    · split at h
      · simp at h
      · refine ih (j + 1) _ ?_ c h
        rw [← List.drop_drop, hdrop, List.drop_succ_cons, List.drop_zero]

/-- Outer-loop invariant of the window search. -/
theorem windowOuter_spec (segs : List TranscriptSegment) :
    ∀ (suffix : List TranscriptSegment) (i : ℕ),
      segs.drop i = suffix → ∀ c ∈ windowOuter i suffix,
        (30 ≤ c.«end» - c.start ∧ c.«end» - c.start ≤ 60) ∧
        (∃ s, segs[c.startIdx]? = some s ∧ s.start = c.start) ∧
        ∃ s, segs[c.endIdx]? = some s ∧ s.«end» = c.«end» := by
  intro suffix
  induction suffix with
  | nil => intro i _ c hc; simp [windowOuter] at hc
  | cons seg rest ih =>
    intro i hdrop c hc
    rw [windowOuter] at hc
    rcases List.mem_append.1 hc with h | h
    · obtain ⟨hdur, hstart, hidx, hend⟩ :=
        windowInner_spec segs seg.start i (seg :: rest) i [] hdrop c h
      refine ⟨hdur, ⟨seg, ?_, hstart.symm⟩, hend⟩
      rw [hidx]
      exact getElem?_of_drop_cons hdrop
    · refine ih (i + 1) ?_ c h
      rw [← List.drop_drop, hdrop, List.drop_succ_cons, List.drop_zero]

/-- C4: every candidate emitted by the window search at the default bounds
has duration (its `end` minus its `start`) within `[30, 60]`, where its
`start` is `segments[startIdx].start` and its `end` is
`segments[endIdx].end`. -/
theorem C4_window_duration (transcript : List TranscriptSegment) (c : ClipCandidate)
    (hc : c ∈ scoredWindows transcript) :
    30 ≤ c.«end» - c.start ∧ c.«end» - c.start ≤ 60 ∧
    (∃ s, transcript[c.startIdx]? = some s ∧ s.start = c.start) ∧
    (∃ s, transcript[c.endIdx]? = some s ∧ s.«end» = c.«end») := by
  obtain ⟨⟨h30, h60⟩, hstart, hend⟩ :=
    windowOuter_spec transcript transcript 0 (List.drop_zero _) c hc
  exact ⟨h30, h60, hstart, hend⟩

/-- Witness for `C4_window_duration` on a one-segment transcript. -/
theorem C4_window_duration_witness :
    ({ start := 0, «end» := 40, text := "hi".toList, score := 15,
       startIdx := 0, endIdx := 0 } : ClipCandidate) ∈
      scoredWindows [ { start := 0, «end» := 40, text := "hi".toList } ] ∧
    (30 ≤ (40 : ℚ) - 0 ∧ (40 : ℚ) - 0 ≤ 60 ∧
      (∃ s, ([ { start := 0, «end» := 40, text := "hi".toList } ] :
          List TranscriptSegment)[(0 : ℕ)]? = some s ∧ s.start = 0) ∧
      (∃ s, ([ { start := 0, «end» := 40, text := "hi".toList } ] :
          List TranscriptSegment)[(0 : ℕ)]? = some s ∧ s.«end» = 40)) :=
  ⟨by decide,
    C4_window_duration [ { start := 0, «end» := 40, text := "hi".toList } ]
      { start := 0, «end» := 40, text := "hi".toList, score := 15,
        startIdx := 0, endIdx := 0 } (by decide)⟩

/-- If two candidate intervals truly intersect, the source's three-way
overlap test detects it. -/
theorem selOverlaps_of_intersect {w s : ClipCandidate}
    (h1 : w.start < s.«end») (h2 : s.start < w.«end») : selOverlaps w s = true := by
  simp only [selOverlaps, Bool.or_eq_true, Bool.and_eq_true, decide_eq_true_eq]
  rcases le_or_lt s.start w.start with hc | hc
  · exact Or.inl (Or.inl ⟨hc, h1⟩)
  · rcases le_or_lt w.«end» s.«end» with hc2 | hc2
    · exact Or.inl (Or.inr ⟨h2, hc2⟩)
    · exact Or.inr ⟨le_of_lt hc, le_of_lt hc2⟩

/-- The greedy selection loop preserves pairwise non-intersection of the
accepted list. -/
theorem selGo_pairwise :
    ∀ (rest acc : List ClipCandidate),
      acc.Pairwise (fun a b => ¬ (a.start < b.«end» ∧ b.start < a.«end»)) →
      (selGo acc rest).Pairwise (fun a b => ¬ (a.start < b.«end» ∧ b.start < a.«end»)) := by
  intro rest
  induction rest with
  | nil => intro acc h; rw [selGo]; exact h
  | cons w rest' ih =>
    intro acc h
    simp only [selGo]
    split
    · exact ih acc h
    · next hany =>
      have hnone : ∀ s ∈ acc, selOverlaps w s = false := by
        intro s hs
        rcases Bool.eq_false_or_eq_true (selOverlaps w s) with ht | hf
        · exact absurd (List.any_eq_true.2 ⟨s, hs, ht⟩) hany
        · exact hf
      have hacc' : (acc ++ [w]).Pairwise
          (fun a b => ¬ (a.start < b.«end» ∧ b.start < a.«end»)) := by
        rw [List.pairwise_append]
        refine ⟨h, List.pairwise_singleton _ _, ?_⟩
        intro a ha b hb
        rcases List.mem_singleton.1 hb with rfl
        intro hint
        have hfalse := hnone a ha
        have htrue := selOverlaps_of_intersect hint.2 hint.1
        simp [htrue] at hfalse
      split
      · exact hacc'
      · exact ih _ hacc'

/-- The greedy selection loop accepts at most 5 candidates. -/
theorem selGo_length :
    ∀ (rest acc : List ClipCandidate), acc.length ≤ 4 → (selGo acc rest).length ≤ 5 := by
  intro rest
  induction rest with
  | nil => intro acc h; rw [selGo]; omega
  | cons w rest' ih =>
    intro acc h
    simp only [selGo]
    split
    · exact ih acc h
    · split
      · next hlen =>
        simp only [List.length_append, List.length_singleton]
        omega
      · next hlen =>
        refine ih _ ?_
        simp only [List.length_append, List.length_singleton] at hlen ⊢
        omega

/-- C5: the selector keeps at most 5 windows, no two selected intervals
intersect (`a.start < b.end ∧ b.start < a.end` holds for no pair, in either
order), the emitted list is sorted ascending by start time, and hence so are
the floored start times carried by the emitted shorts. -/
theorem C5_selector (cands : List ClipCandidate) :
    (selectWindows cands).length ≤ 5 ∧
    (selectWindows cands).Pairwise (fun a b => ¬ (a.start < b.«end» ∧ b.start < a.«end»)) ∧
    (selectWindows cands).Pairwise (fun a b => a.start ≤ b.start) ∧
    ((selectWindows cands).map (fun c => ⌊c.start⌋)).Pairwise (fun x y => x ≤ y) := by
  have hsel :
      selectWindows cands =
        (selGo [] (cands.mergeSort (fun a b => decide (b.score ≤ a.score)))).mergeSort
          (fun a b => decide (a.start ≤ b.start)) := rfl
  set L := selGo [] (cands.mergeSort (fun a b => decide (b.score ≤ a.score))) with hL
  have hperm : List.Perm (L.mergeSort (fun a b => decide (a.start ≤ b.start))) L :=
    List.mergeSort_perm L _
  have hsymm : Symmetric (fun a b : ClipCandidate =>
      ¬ (a.start < b.«end» ∧ b.start < a.«end»)) := by
    intro a b hab ⟨h1, h2⟩
    exact hab ⟨h2, h1⟩
  have hLpair : L.Pairwise (fun a b => ¬ (a.start < b.«end» ∧ b.start < a.«end»)) :=
    selGo_pairwise _ [] List.Pairwise.nil
  have hsorted :
      (L.mergeSort (fun a b => decide (a.start ≤ b.start))).Pairwise
        (fun a b => a.start ≤ b.start) := by
    have := @List.sorted_mergeSort ClipCandidate
      (fun a b : ClipCandidate => decide (a.start ≤ b.start))
      (fun a b c hab hbc => by
        simp only [decide_eq_true_eq] at *
        exact le_trans hab hbc)
      (fun a b => by
        simp only [Bool.or_eq_true, decide_eq_true_eq]
        exact le_total _ _)
      L
    exact this.imp (fun h => by simpa using h)
  refine ⟨?_, ?_, ?_, ?_⟩
  · rw [hsel, hperm.length_eq]
    exact selGo_length _ [] (by simp)
  · rw [hsel]
    exact (hperm.pairwise_iff fun h' => hsymm h').2 hLpair
  · rw [hsel]
    exact hsorted
  · rw [hsel]
    exact List.pairwise_map.2 (hsorted.imp fun h => Int.floor_le_floor h)

/-- Closed form of the word-grouping worker: with a consistent capacity
counter it emits the pending group followed by the grouping of the rest. -/
theorem chunkGo_eq (mW : ℕ) (hm : 1 ≤ mW) :
    ∀ (l acc : List (List Char)) (k : ℕ), (acc = [] → k = mW) →
      chunkGo mW l acc k =
        if acc = [] ∧ l = [] then []
        else (acc.reverse ++ l.take k) :: chunkGroups mW (l.drop k) := by
  intro l
  induction l with
  | nil =>
    intro acc k _
    by_cases ha : acc = []
    · simp [chunkGo, ha]
    · simp [chunkGo, ha, chunkGroups]
  | cons w r ih =>
    intro acc k hside
    cases k with
    | zero =>
      have ha : acc ≠ [] := fun h => by have := hside h; omega
      cases mW with
      | zero => omega
      | succ m' =>
        rw [chunkGo]
        have hgroups : chunkGroups (m' + 1) (w :: r) = chunkGo (m' + 1) r [w] m' := by
          rw [chunkGroups, chunkGo]
        simp only [ha, false_and, if_neg, Nat.add_sub_cancel, List.take_zero,
          List.drop_zero, List.append_nil, hgroups]
        simp [ha]
    | succ k' =>
      rw [chunkGo, ih (w :: acc) k' (by intro h; cases h)]
      simp only [List.cons_ne_nil, false_and, if_neg, not_false_iff, List.reverse_cons,
        List.take_succ_cons, List.drop_succ_cons]
      simp [List.append_assoc]

/-- Unfolding equation for the word grouping on a nonempty list. -/
theorem chunkGroups_cons (mW : ℕ) (hm : 1 ≤ mW) (l : List (List Char)) (hl : l ≠ []) :
    chunkGroups mW l = l.take mW :: chunkGroups mW (l.drop mW) := by
  have h := chunkGo_eq mW hm l [] mW (fun _ => rfl)
  rw [chunkGroups, h]
  simp [hl]

/-- Flattening the groups recovers the word list. -/
theorem chunkGo_flatten (mW : ℕ) :
    ∀ (l acc : List (List Char)) (k : ℕ),
      (chunkGo mW l acc k).flatten = acc.reverse ++ l := by
  intro l
  induction l with
  | nil =>
    intro acc k
    by_cases ha : acc = [] <;> simp [chunkGo, ha]
  | cons w r ih =>
    intro acc k
    cases k with
    | zero => simp [chunkGo, ih]
    | succ k' => simp [chunkGo, ih]

/-- Flattening `chunkGroups` recovers the word list. -/
theorem chunkGroups_flatten (mW : ℕ) (l : List (List Char)) :
    (chunkGroups mW l).flatten = l := by
  rw [chunkGroups, chunkGo_flatten]
  simp

/-- No group produced by the word grouping is empty (bounded recursion on the
word-list length). -/
theorem chunkGroups_ne_nil_aux (mW : ℕ) (hm : 1 ≤ mW) :
    ∀ (n : ℕ) (l : List (List Char)), l.length ≤ n →
      ∀ g ∈ chunkGroups mW l, g ≠ [] := by
  intro n
  induction n with
  | zero =>
    intro l hlen g hg
    have : l = [] := List.length_eq_zero.1 (Nat.le_antisymm hlen (Nat.zero_le _))
    subst this
    simp [chunkGroups, chunkGo] at hg
  | succ n ih =>
    intro l hlen g hg
    by_cases hl : l = []
    · subst hl; simp [chunkGroups, chunkGo] at hg
    · rw [chunkGroups_cons mW hm l hl] at hg
      rcases List.mem_cons.1 hg with rfl | hg'
      · intro h
        rw [List.take_eq_nil_iff] at h
        rcases h with h | h
        · omega
        · exact hl h
      · have hpos : 0 < l.length := List.length_pos.2 hl
        have hd : (l.drop mW).length = l.length - mW := List.length_drop mW l
        exact ih (l.drop mW) (by omega) g hg'

/-- No group produced by the word grouping is empty. -/
theorem chunkGroups_ne_nil (mW : ℕ) (hm : 1 ≤ mW) (l : List (List Char)) :
    ∀ g ∈ chunkGroups mW l, g ≠ [] :=
  chunkGroups_ne_nil_aux mW hm l.length l le_rfl

/-- `join` distributes over a concatenation of nonempty word lists. -/
theorem joinSep_append (sep : Char) :
    ∀ (a b : List (List Char)), a ≠ [] → b ≠ [] →
      joinSep sep (a ++ b) = joinSep sep a ++ sep :: joinSep sep b := by
  intro a
  induction a with
  | nil => intro b h; exact absurd rfl h
  | cons x a' ih =>
    intro b _ hb
    cases a' with
    | nil =>
      cases b with
      | nil => exact absurd rfl hb
      | cons y b' => simp [joinSep]
    | cons x' a'' =>
      calc joinSep sep ((x :: x' :: a'') ++ b)
          = x ++ sep :: joinSep sep ((x' :: a'') ++ b) := by
            simp only [List.cons_append]
            rw [joinSep]
        _ = x ++ sep :: (joinSep sep (x' :: a'') ++ sep :: joinSep sep b) := by
            rw [ih b (List.cons_ne_nil _ _) hb]
        _ = joinSep sep (x :: x' :: a'') ++ sep :: joinSep sep b := by
            rw [joinSep]
            simp [List.append_assoc]

/-- Joining the per-group joins equals joining all the words, provided no
group is empty. -/
theorem joinSep_map_flatten (sep : Char) :
    ∀ (gs : List (List (List Char))), (∀ g ∈ gs, g ≠ []) →
      joinSep sep (gs.map (joinSep sep)) = joinSep sep gs.flatten := by
  intro gs
  induction gs with
  | nil => intro _; simp [joinSep]
  | cons g gs' ih =>
    intro hne
    cases gs' with
    | nil => simp [joinSep]
    | cons g2 gs'' =>
      have hg : g ≠ [] := hne g (List.mem_cons_self _ _)
      have hflat : (g2 :: gs'').flatten ≠ [] := by
        have hg2 : g2 ≠ [] := hne g2 (by simp)
        simp only [List.flatten_cons, ne_eq, List.append_eq_nil]
        intro ⟨h, _⟩
        exact hg2 h
      calc joinSep sep ((g :: g2 :: gs'').map (joinSep sep))
          = joinSep sep g ++ sep :: joinSep sep ((g2 :: gs'').map (joinSep sep)) := by
            simp only [List.map_cons]
            rw [joinSep]
        _ = joinSep sep g ++ sep :: joinSep sep (g2 :: gs'').flatten := by
            rw [ih (fun g' hg' => hne g' (List.mem_cons_of_mem _ hg'))]
        _ = joinSep sep (g ++ (g2 :: gs'').flatten) :=
            (joinSep_append sep g _ hg hflat).symm
        _ = joinSep sep (g :: g2 :: gs'').flatten := by
            simp [List.flatten_cons]

/-- The texts of the emitted chunks are exactly the joined word groups. -/
theorem emitChunks_texts (st en tpw : ℚ) (mW : ℕ) :
    ∀ (gs : List (List (List Char))) (i : ℕ),
      (emitChunks st en tpw mW i gs).map TranscriptSegment.text = gs.map joinSpace := by
  intro gs
  induction gs with
  | nil => intro i; simp [emitChunks]
  | cons g gs' ih => intro i; simp [emitChunks, ih]

/-- C6: the claim is false on the code: for a segment whose cleaned text
contains a run of two spaces, the chunker splits on whitespace runs and
rejoins with single spaces, so the concatenation of the chunk texts differs
from the cleaned text. -/
theorem C6_counterexample :
    trimStr (decodeHtmlEntities "a  b".toList) = "a  b".toList ∧
    joinSpace ((chunkSegments [ { start := 0, «end» := 2, text := "a  b".toList } ] 1 0).map
        TranscriptSegment.text) = "a b".toList ∧
    "a b".toList ≠ "a  b".toList := by decide

/-- C6 (amended): for every transcript segment and `maxWords ≥ 1` whose
cleaned text (entity-decoded and trimmed) is already whitespace-normalized
(equal to its words joined by single spaces — true of every
normalizer-produced segment), concatenating the chunk texts in order with
single spaces reproduces the cleaned text exactly; in general the
concatenation reproduces the cleaned text with every whitespace run collapsed
to a single space. -/
theorem C6_chunk_roundtrip (seg : TranscriptSegment) (maxWords : ℕ) (clipStart : ℚ)
    (hm : 1 ≤ maxWords)
    (hnorm : trimStr (decodeHtmlEntities seg.text) =
      joinSpace (wordsOf (trimStr (decodeHtmlEntities seg.text)))) :
    joinSpace ((chunkSegments [seg] maxWords clipStart).map TranscriptSegment.text) =
      trimStr (decodeHtmlEntities seg.text) := by
  have hflat : chunkSegments [seg] maxWords clipStart = chunkOneSeg maxWords seg := by
    simp [chunkSegments]
  rw [hflat]
  simp only [chunkOneSeg]
  split_ifs with h0 hle
  · simp [joinSpace, joinSep, h0]
  · simp [joinSpace, joinSep]
  · rw [emitChunks_texts]
    have hgroups := chunkGroups_ne_nil maxWords hm (wordsOf (trimStr (decodeHtmlEntities seg.text)))
    rw [joinSpace, joinSep_map_flatten ' ' _ hgroups, chunkGroups_flatten]
    exact hnorm.symm

/-- Witness for `C6_chunk_roundtrip` at the 7-word example segment with
`maxWords = 5`. -/
theorem C6_chunk_roundtrip_witness :
    1 ≤ 5 ∧
    (trimStr (decodeHtmlEntities "one two three four five six seven".toList) =
      joinSpace (wordsOf (trimStr
        (decodeHtmlEntities "one two three four five six seven".toList)))) ∧
    joinSpace ((chunkSegments
        [ { start := 10, «end» := 15, text := "one two three four five six seven".toList } ]
        5 0).map TranscriptSegment.text) =
      trimStr (decodeHtmlEntities "one two three four five six seven".toList) :=
  ⟨by decide, by decide,
    C6_chunk_roundtrip
      { start := 10, «end» := 15, text := "one two three four five six seven".toList }
      5 0 (by decide) (by decide)⟩

/-- Digit-count bound for the fuelled digit expansion. -/
theorem digitsGo_len :
    ∀ (fuel n k : ℕ), 1 ≤ k → n < 10 ^ k → n < fuel → (digitsGo fuel n).length ≤ k := by
  intro fuel
  induction fuel with
  | zero => intro n k _ _ h; omega
  | succ fuel ih =>
    intro n k hk hpow hfuel
    rw [digitsGo]
    split
    · simpa using hk
    · next h10 =>
      have hn10 : 10 ≤ n := Nat.le_of_not_lt h10
      have hk2 : 2 ≤ k := by
        rcases Nat.lt_or_ge k 2 with hlt | hge
        · have hk1 : k = 1 := by omega
          rw [hk1, pow_one] at hpow
          omega
        · exact hge
      have hsplit : 10 ^ k = 10 ^ (k - 1) * 10 := by
        conv_lhs => rw [show k = (k - 1) + 1 by omega]
        rw [pow_succ]
      have hdiv : n / 10 < 10 ^ (k - 1) :=
        (Nat.div_lt_iff_lt_mul (by norm_num)).2 (by omega)
      have hfuel' : n / 10 < fuel := by
        have h1 : n / 10 < n := Nat.div_lt_self (by omega) (by norm_num)
        omega
      have := ih (n / 10) (k - 1) (by omega) hdiv hfuel'
      simp only [List.length_append, List.length_singleton]
      omega

/-- `String(n)` has at most `k` digits when `n < 10^k`. -/
theorem natDigits10_len_le {n k : ℕ} (hk : 1 ≤ k) (h : n < 10 ^ k) :
    (natDigits10 n).length ≤ k :=
  digitsGo_len (n + 1) n k hk h (Nat.lt_succ_self n)

/-- Length of `padStart(k, "0")`. -/
theorem padZeros_length (k : ℕ) (l : List Char) :
    (padZeros k l).length = max k l.length := by
  simp only [padZeros, List.length_append, List.length_replicate]
  omega

/-- A field padded to width `k` has width exactly `k` when its value is below
`10^k`. -/
theorem padZeros_digits_length {n k : ℕ} (hk : 1 ≤ k) (h : n < 10 ^ k) :
    (padZeros k (natDigitChars n)).length = k := by
  rw [padZeros_length]
  have hlen : (natDigits10 n).length ≤ k := natDigits10_len_le hk h
  simp only [natDigitChars, List.length_map]
  omega

/-- The JavaScript remainder is in `[0, n)` for a positive modulus. -/
theorem jsMod_bounds (a n : ℚ) (hn : 0 < n) : 0 ≤ jsMod a n ∧ jsMod a n < n := by
  have h1 : ((⌊a / n⌋ : ℤ) : ℚ) ≤ a / n := Int.floor_le _
  have h2 : a / n < (⌊a / n⌋ : ℚ) + 1 := Int.lt_floor_add_one _
  have hne : n ≠ 0 := ne_of_gt hn
  have hcancel : n * (a / n) = a := by field_simp
  constructor
  · have := mul_le_mul_of_nonneg_left h1 (le_of_lt hn)
    rw [hcancel] at this
    rw [jsMod]
    linarith
  · have := mul_lt_mul_of_pos_left h2 hn
    rw [hcancel] at this
    rw [jsMod]
    ring_nf at this ⊢
    linarith

/-- The minutes field of `toSrtTime` is below 60. -/
theorem srtMinutes_le (q : ℚ) : srtMinutes q ≤ 59 := by
  rw [srtMinutes]
  have h36 := jsMod_bounds q 3600 (by norm_num)
  have hlt : jsMod q 3600 / 60 < 60 := by
    rw [div_lt_iff (by norm_num : (0 : ℚ) < 60)]
    linarith [h36.2]
  have hfl : ⌊jsMod q 3600 / 60⌋ < (60 : ℤ) := Int.floor_lt.2 (by exact_mod_cast hlt)
  exact Int.toNat_le.2 (by omega)

/-- The seconds field of `toSrtTime` is below 60. -/
theorem srtSecs_le (q : ℚ) : srtSecs q ≤ 59 := by
  rw [srtSecs]
  have h60 := jsMod_bounds q 60 (by norm_num)
  have hfl : ⌊jsMod q 60⌋ < (60 : ℤ) := Int.floor_lt.2 (by exact_mod_cast h60.2)
  exact Int.toNat_le.2 (by omega)

/-- The rounded milliseconds of `toSrtTime` are at most 1000 (the value 1000
is attained, e.g. at `10.9995`, and then the field has four digits). -/
theorem srtMs_le (q : ℚ) : srtMs q ≤ 1000 := by
  rw [srtMs]
  have h1 := jsMod_bounds q 1 one_pos
  have hx : jsMod q 1 * 1000 < 1000 := by nlinarith [h1.2]
  have hr : (round (jsMod q 1 * 1000) : ℤ) ≤ 1000 := by
    rw [round_eq]
    have hlt : jsMod q 1 * 1000 + 1 / 2 < 1001 := by linarith
    have := Int.floor_lt.2 (show jsMod q 1 * 1000 + 1 / 2 < ((1001 : ℤ) : ℚ) by exact_mod_cast hlt)
    omega
  exact Int.toNat_le.2 hr

/-- Indices of the kept subtitle entries are strictly increasing and at least
the running counter plus one. -/
theorem srtGo_idx (clipStart : ℚ) :
    ∀ (l : List TranscriptSegment) (i : ℕ),
      ((srtGo clipStart i l).map SrtEntry.idx).Pairwise (· < ·) ∧
      ∀ en ∈ srtGo clipStart i l, i + 1 ≤ en.idx := by
  intro l
  induction l with
  | nil => intro i; simp [srtGo]
  | cons sg rest ih =>
    intro i
    simp only [srtGo]
    split
    · refine ⟨by simpa using (ih (i + 1)).1, ?_⟩
      intro en hen
      have := (ih (i + 1)).2 en (by simpa using hen)
      omega
    · simp only [List.singleton_append]
      constructor
      · rw [List.map_cons]
        refine List.pairwise_cons.2 ⟨?_, (ih (i + 1)).1⟩
        intro y hy
        rcases List.mem_map.1 hy with ⟨en, hen, rfl⟩
        have h := (ih (i + 1)).2 en hen
        show i + 1 < en.idx
        omega
      · intro en hen
        rcases List.mem_cons.1 hen with rfl | hen'
        · exact Nat.le_refl _
        · have := (ih (i + 1)).2 en hen'
          omega

/-- Every kept subtitle entry comes from a chunk, with clamped clip-relative
times and the drop guard false. -/
theorem srtGo_mem (clipStart : ℚ) :
    ∀ (l : List TranscriptSegment) (i : ℕ) (en : SrtEntry), en ∈ srtGo clipStart i l →
      ∃ sg ∈ l, en.s = max 0 (sg.start - clipStart) ∧
        en.e = max 0 (sg.«end» - clipStart) ∧ en.text = sg.text ∧
        ¬ (en.e - en.s < 1 / 10 ∨ trimStr sg.text = []) := by
  intro l
  induction l with
  | nil => intro i en hen; simp [srtGo] at hen
  | cons sg rest ih =>
    intro i en hen
    simp only [srtGo] at hen
    split at hen
    · next hdrop =>
      rcases ih (i + 1) en (by simpa using hen) with ⟨sg', hsg', hrest⟩
      exact ⟨sg', List.mem_cons_of_mem _ hsg', hrest⟩
    · next hkeep =>
      simp only [List.singleton_append] at hen
      rcases List.mem_cons.1 hen with rfl | hen'
      · exact ⟨sg, List.mem_cons_self _ _, rfl, rfl, rfl, hkeep⟩
      · rcases ih (i + 1) en hen' with ⟨sg', hsg', hrest⟩
        exact ⟨sg', List.mem_cons_of_mem _ hsg', hrest⟩

/-- Every emitted chunk ends no later than the segment it came from. -/
theorem emitChunks_end_le (st en tpw : ℚ) (mW : ℕ) :
    ∀ (gs : List (List (List Char))) (i : ℕ) (c : TranscriptSegment),
      c ∈ emitChunks st en tpw mW i gs → c.«end» ≤ en := by
  intro gs
  induction gs with
  | nil => intro i c hc; simp [emitChunks] at hc
  | cons g gs' ih =>
    intro i c hc
    rw [emitChunks] at hc
    rcases List.mem_cons.1 hc with rfl | hc'
    · exact min_le_left _ _
    · exact ih (i + mW) c hc'

/-- Every chunk produced by `chunkSegments` ends no later than some input
segment. -/
theorem chunkSegments_end_le (segments : List TranscriptSegment) (mW : ℕ) (cs : ℚ) :
    ∀ c ∈ chunkSegments segments mW cs, ∃ sg ∈ segments, c.«end» ≤ sg.«end» := by
  intro c hc
  rw [chunkSegments] at hc
  rcases List.mem_flatMap.1 hc with ⟨sg, hsg, hcone⟩
  refine ⟨sg, hsg, ?_⟩
  simp only [chunkOneSeg] at hcone
  split_ifs at hcone with h0 hle
  · simp at hcone
  · rcases List.mem_singleton.1 hcone with rfl
    exact le_refl _
  · exact emitChunks_end_le _ _ _ _ _ _ c hcone

/-- C8: the claim is false on the code. For the segments
`(0,2,"hello")`, `(2,2.05,"x")`, `(2.05,10.9995,"world")` with clip start 0
(a clip of duration `L = 5`): the middle chunk is dropped (0.05 s < 0.1 s)
but the running index keeps counting, so the emitted indices are `1, 3`, not
sequential; the last timestamp `10.9995` exceeds `L = 5`; and its millisecond
field is `Math.round(0.9995*1000) = 1000`, printed as the four digits
`1000` (`00:00:10,1000`). -/
theorem C8_counterexample :
    ((srtEntries
        [ { start := 0, «end» := 2, text := "hello".toList }
        , { start := 2, «end» := 41/20, text := "x".toList }
        , { start := 41/20, «end» := 21999/2000, text := "world".toList } ]
        0 5).map SrtEntry.idx = [1, 3]) ∧
    ([1, 3] ≠ [1, 2]) ∧
    ((srtEntries
        [ { start := 0, «end» := 2, text := "hello".toList }
        , { start := 2, «end» := 41/20, text := "x".toList }
        , { start := 41/20, «end» := 21999/2000, text := "world".toList } ]
        0 5).map SrtEntry.e = [2, 21999/2000]) ∧
    ¬ ((21999/2000 : ℚ) ≤ 5) ∧
    toSrtTime (21999/2000) = "00:00:10,1000".toList ∧
    (padZeros 3 (natDigitChars (srtMs (21999/2000)))).length ≠ 3 := by decide

/-- C8 (amended): for every segment list, clip start and `maxWords`, the
subtitle track built by `generateSrt` consists of blank-line-separated blocks
(each rendered block ends in a newline and blocks are joined with `"\n"`, by
construction of `generateSrt`); block indices are strictly increasing and
start at a value `≥ 1`, but are 1-based positions in the pre-filter chunk
list, so they can skip values when entries are dropped; each kept entry has
timestamps `≥ 0` with duration `≥ 0.1` s and non-empty text; if additionally
every input segment ends by `clipStart + L` (with `L ≥ 0`), all timestamps
lie within `[0, L]`; each timing field `MM`/`SS` renders as exactly two
digits, and the millisecond field as exactly three digits unless the
sub-second part rounds to 1000, in which case it renders as the four digits
`1000`. -/
theorem C8_srt_entries (segments : List TranscriptSegment) (clipStart L : ℚ)
    (maxWords : ℕ) (hL : 0 ≤ L)
    (hend : ∀ sg ∈ segments, sg.«end» - clipStart ≤ L) :
    ((srtEntries segments clipStart maxWords).map SrtEntry.idx).Pairwise (· < ·) ∧
    ∀ en ∈ srtEntries segments clipStart maxWords,
      1 ≤ en.idx ∧ 0 ≤ en.s ∧ en.s + 1 / 10 ≤ en.e ∧ en.e ≤ L ∧ en.text ≠ [] ∧
      ((padZeros 2 (natDigitChars (srtMinutes en.s))).length = 2 ∧
        (padZeros 2 (natDigitChars (srtSecs en.s))).length = 2 ∧
        (padZeros 2 (natDigitChars (srtMinutes en.e))).length = 2 ∧
        (padZeros 2 (natDigitChars (srtSecs en.e))).length = 2) ∧
      (srtMs en.s ≤ 1000 ∧
        (srtMs en.s ≠ 1000 → (padZeros 3 (natDigitChars (srtMs en.s))).length = 3)) ∧
      (srtMs en.e ≤ 1000 ∧
        (srtMs en.e ≠ 1000 → (padZeros 3 (natDigitChars (srtMs en.e))).length = 3)) := by
  refine ⟨(srtGo_idx clipStart _ 0).1, ?_⟩
  intro en hen
  have hidx := (srtGo_idx clipStart _ 0).2 en hen
  obtain ⟨sg, hsg, hs, he, htext, hguard⟩ := srtGo_mem clipStart _ 0 en hen
  push_neg at hguard
  obtain ⟨hdur, htrim⟩ := hguard
  have h2 : ∀ q : ℚ, (padZeros 2 (natDigitChars (srtMinutes q))).length = 2 ∧
      (padZeros 2 (natDigitChars (srtSecs q))).length = 2 := by
    intro q
    constructor
    · exact padZeros_digits_length (by norm_num)
        (lt_of_le_of_lt (srtMinutes_le q) (by norm_num))
    · exact padZeros_digits_length (by norm_num)
        (lt_of_le_of_lt (srtSecs_le q) (by norm_num))
  have h3 : ∀ q : ℚ, srtMs q ≤ 1000 ∧
      (srtMs q ≠ 1000 → (padZeros 3 (natDigitChars (srtMs q))).length = 3) := by
    intro q
    refine ⟨srtMs_le q, fun hne => ?_⟩
    have := srtMs_le q
    exact padZeros_digits_length (by norm_num) (by omega)
  refine ⟨hidx, ?_, by linarith, ?_, ?_, ⟨(h2 en.s).1, (h2 en.s).2, (h2 en.e).1, (h2 en.e).2⟩,
    h3 en.s, h3 en.e⟩
  · rw [hs]; exact le_max_left _ _
  · obtain ⟨sg', hsg', hle⟩ := chunkSegments_end_le segments maxWords clipStart sg hsg
    have := hend sg' hsg'
    rw [he]
    exact max_le hL (by linarith)
  · intro hnil
    rw [htext] at hnil
    rw [hnil] at htrim
    exact htrim rfl

/-- Witness for `C8_srt_entries` on a one-segment clip of duration 2. -/
theorem C8_srt_entries_witness :
    (0 : ℚ) ≤ 2 ∧
    (∀ sg ∈ [ ({ start := 0, «end» := 2, text := "hello".toList } :
        TranscriptSegment) ], sg.«end» - 0 ≤ 2) ∧
    (((srtEntries [ { start := 0, «end» := 2, text := "hello".toList } ] 0 5).map
        SrtEntry.idx).Pairwise (· < ·) ∧
      ∀ en ∈ srtEntries [ { start := 0, «end» := 2, text := "hello".toList } ] 0 5,
        1 ≤ en.idx ∧ 0 ≤ en.s ∧ en.s + 1 / 10 ≤ en.e ∧ en.e ≤ 2 ∧ en.text ≠ [] ∧
        ((padZeros 2 (natDigitChars (srtMinutes en.s))).length = 2 ∧
          (padZeros 2 (natDigitChars (srtSecs en.s))).length = 2 ∧
          (padZeros 2 (natDigitChars (srtMinutes en.e))).length = 2 ∧
          (padZeros 2 (natDigitChars (srtSecs en.e))).length = 2) ∧
        (srtMs en.s ≤ 1000 ∧
          (srtMs en.s ≠ 1000 → (padZeros 3 (natDigitChars (srtMs en.s))).length = 3)) ∧
        (srtMs en.e ≤ 1000 ∧
          (srtMs en.e ≠ 1000 → (padZeros 3 (natDigitChars (srtMs en.e))).length = 3))) :=
  ⟨by decide, by decide,
    C8_srt_entries [ { start := 0, «end» := 2, text := "hello".toList } ] 0 2 5
      (by decide) (by decide)⟩

/-- Joint invariant of the split automaton: the filtered field list is
non-empty as soon as the remaining input has a sound (non-separator)
character, or (for `splitGo`) a token is already pending. -/
theorem split_words_aux (l : List Char) :
    (∀ acc : List Char, ((∃ c ∈ l, ¬ isWs c) ∨ acc ≠ []) →
      (splitGo isWs l acc).filter (fun w => w.length != 0) ≠ []) ∧
    ((∃ c ∈ l, ¬ isWs c) →
      (splitSkip isWs l).filter (fun w => w.length != 0) ≠ []) := by
  induction l with
  | nil =>
    constructor
    · intro acc hacc
      rcases hacc with ⟨c, hc, _⟩ | hacc
      · simp at hc
      · rw [splitGo]
        have hmem : acc.reverse ∈
            ([acc.reverse].filter (fun w => w.length != 0)) := by
          refine List.mem_filter.2 ⟨List.mem_singleton.2 rfl, ?_⟩
          simp [List.length_reverse, List.length_eq_zero, hacc]
        exact List.ne_nil_of_mem hmem
    · rintro ⟨c, hc, _⟩
      simp at hc
  | cons ch r ih =>
    constructor
    · intro acc hacc
      rw [splitGo]
      split
      · next hws =>
        rcases hacc with ⟨c, hc, hcw⟩ | hacc
        · rcases List.mem_cons.1 hc with rfl | hcr
          · exact absurd hws hcw
          · have hskip := ih.2 ⟨c, hcr, hcw⟩
            rw [List.filter_cons]
            split
            · exact List.cons_ne_nil _ _
            · exact hskip
        · rw [List.filter_cons]
          rw [if_pos (by simp [List.length_reverse, List.length_eq_zero, hacc])]
          exact List.cons_ne_nil _ _
      · next hws =>
        exact ih.1 (ch :: acc) (Or.inr (List.cons_ne_nil _ _))
    · rintro ⟨c, hc, hcw⟩
      rw [splitSkip]
      split
      · next hws =>
        rcases List.mem_cons.1 hc with rfl | hcr
        · exact absurd hws hcw
        · exact ih.2 ⟨c, hcr, hcw⟩
      · next hws =>
        exact ih.1 [ch] (Or.inr (by simp))

/-- A string containing a non-whitespace character has a non-empty word
list. -/
theorem wordsOf_ne_nil {l : List Char} (h : ∃ c ∈ l, ¬ isWs c) : wordsOf l ≠ [] := by
  rw [wordsOf, jsSplitWs, jsSplit]
  exact (split_words_aux l).1 [] (Or.inl h)

/-- A non-empty trimmed string contains a non-whitespace character (its last
one). -/
theorem trimStr_has_sound_char {x : List Char} (h : trimStr x ≠ []) :
    ∃ c ∈ trimStr x, ¬ isWs c := by
  rw [trimStr] at h ⊢
  set z := (x.dropWhile isWs).reverse.dropWhile isWs with hz
  have hzne : z ≠ [] := by
    intro h0
    rw [h0] at h
    simp at h
  obtain ⟨c, z', hcz⟩ := List.exists_cons_of_ne_nil hzne
  have hmatch := List.head?_dropWhile_not isWs ((x.dropWhile isWs).reverse)
  rw [← hz, hcz] at hmatch
  simp only [List.head?_cons] at hmatch
  refine ⟨c, ?_, by simp [hmatch]⟩
  rw [hcz]
  simp

/-- The cleaned text of a chunked segment, when non-empty, yields a non-empty
word list. -/
theorem wordsOf_trimStr_ne_nil {x : List Char} (h : trimStr x ≠ []) :
    wordsOf (trimStr x) ≠ [] :=
  wordsOf_ne_nil (trimStr_has_sound_char h)

/-- `slice(a, a + m)` with nonnegative start is `drop a` then `take m`. -/
theorem jsSlice_natCast {α : Type} (l : List α) (a m : ℕ) :
    jsSlice l (a : ℤ) ((a : ℤ) + (m : ℤ)) = (l.drop a).take m := by
  simp only [jsSlice]
  rw [if_neg (by omega : ¬ ((a : ℤ) < 0)),
    if_neg (by omega : ¬ ((a : ℤ) + (m : ℤ) < 0))]
  rcases le_or_lt a l.length with hle | hlt
  · have hs : min (a : ℤ) (l.length : ℤ) = (a : ℤ) := by omega
    rw [hs, Int.toNat_natCast]
    rw [List.take_eq_take]
    simp only [List.length_take, List.length_drop]
    omega
  · have h1 : l.drop a = [] := List.drop_eq_nil_iff.2 (le_of_lt hlt)
    have hs : min (a : ℤ) (l.length : ℤ) = (l.length : ℤ) := by omega
    rw [hs, Int.toNat_natCast, List.drop_length, h1]
    simp

/-- Membership description for the chunks emitted over the word groups: every
chunk corresponds to a word offset `i'` that is a multiple of `maxWords`,
with the times and text the source computes for the group starting there. -/
theorem emitChunks_chunkGroups_mem (st en tpw : ℚ) (mW : ℕ) (hm : 1 ≤ mW)
    (words : List (List Char)) :
    ∀ (n : ℕ) (i : ℕ), (words.drop i).length ≤ n → mW ∣ i →
      ∀ c ∈ emitChunks st en tpw mW i (chunkGroups mW (words.drop i)),
        ∃ i' : ℕ, mW ∣ i' ∧ words.drop i' ≠ [] ∧
          c.start = st + (i' : ℚ) * tpw ∧
          c.«end» = min en (st + ((i' : ℚ) +
            (((words.drop i').take mW).length : ℚ)) * tpw) ∧
          c.text = joinSpace ((words.drop i').take mW) := by
  intro n
  induction n with
  | zero =>
    intro i hlen _ c hc
    have h0 : words.drop i = [] := List.length_eq_zero.1 (Nat.le_antisymm hlen (Nat.zero_le _))
    rw [h0] at hc
    simp [chunkGroups, chunkGo, emitChunks] at hc
  | succ n ih =>
    intro i hlen hdvd c hc
    by_cases hr : words.drop i = []
    · rw [hr] at hc
      simp [chunkGroups, chunkGo, emitChunks] at hc
    · rw [chunkGroups_cons mW hm _ hr, emitChunks] at hc
      rcases List.mem_cons.1 hc with rfl | hc'
      · exact ⟨i, hdvd, hr, rfl, rfl, rfl⟩
      · have hdd : (words.drop i).drop mW = words.drop (i + mW) := by
          rw [List.drop_drop, Nat.add_comm]
        have hlen' : (words.drop (i + mW)).length ≤ n := by
          have hpos := List.length_pos.2 hr
          have h1 : ((words.drop i).drop mW).length = (words.drop i).length - mW :=
            List.length_drop mW _
          rw [hdd] at h1
          omega
        rw [hdd] at hc'
        exact ih (i + mW) hlen' (Dvd.dvd.add hdvd (dvd_refl mW)) c hc'

/-- C7: the preview lookup `getChunkedCaption` agrees with the offline export
chunker: for every segment, `maxWords ≥ 1` and playback time `t` inside the
half-open time interval of a chunk produced by `chunkSegments`, the lookup
returns exactly that chunk's text. -/
theorem C7_preview_matches_export (seg : TranscriptSegment) (maxWords : ℕ)
    (clipStart t : ℚ) (c : TranscriptSegment) (hm : 1 ≤ maxWords)
    (hc : c ∈ chunkSegments [seg] maxWords clipStart)
    (ht1 : c.start ≤ t) (ht2 : t < c.«end») :
    getChunkedCaption seg t maxWords = some c.text := by
  have hflat : chunkSegments [seg] maxWords clipStart = chunkOneSeg maxWords seg := by
    simp [chunkSegments]
  rw [hflat] at hc
  simp only [chunkOneSeg] at hc
  by_cases h0 : trimStr (decodeHtmlEntities seg.text) = []
  · rw [if_pos h0] at hc
    simp at hc
  · rw [if_neg h0] at hc
    have hwords : wordsOf (trimStr (decodeHtmlEntities seg.text)) ≠ [] :=
      wordsOf_trimStr_ne_nil h0
    have hwlen : ¬ ((wordsOf (trimStr (decodeHtmlEntities seg.text))).length = 0) := by
      simpa [List.length_eq_zero] using hwords
    by_cases hle : (wordsOf (trimStr (decodeHtmlEntities seg.text))).length ≤ maxWords
    · rw [if_pos hle] at hc
      rcases List.mem_singleton.1 hc with rfl
      simp only [getChunkedCaption]
      rw [if_neg h0, if_neg hwlen, if_pos hle]
    · rw [if_neg hle] at hc
      obtain ⟨i', hdvd, hne, hcs, hce, hct⟩ :=
        emitChunks_chunkGroups_mem seg.start seg.«end»
          ((seg.«end» - seg.start) /
            ((wordsOf (trimStr (decodeHtmlEntities seg.text))).length : ℚ))
          maxWords hm (wordsOf (trimStr (decodeHtmlEntities seg.text)))
          (wordsOf (trimStr (decodeHtmlEntities seg.text))).length 0
          (by rw [List.drop_zero]) (dvd_zero maxWords) c
          (by rw [List.drop_zero]; exact hc)
      set ws := wordsOf (trimStr (decodeHtmlEntities seg.text)) with hwsdef
      set tpw := (seg.«end» - seg.start) / (ws.length : ℚ) with htpwdef
      set len := ((ws.drop i').take maxWords).length with hlendef
      have hlen1 : 1 ≤ len := by
        rw [hlendef, List.length_take]
        have : 0 < (ws.drop i').length := List.length_pos.2 hne
        omega
      have hlenM : len ≤ maxWords := by
        rw [hlendef, List.length_take]
        omega
      have hcc : c.start < c.«end» := lt_of_le_of_lt ht1 ht2
      have hmin : c.«end» ≤ seg.start + ((i' : ℚ) + (len : ℚ)) * tpw := by
        rw [hce]
        exact min_le_right _ _
      have h2 : seg.start + (i' : ℚ) * tpw <
          seg.start + ((i' : ℚ) + (len : ℚ)) * tpw := by
        calc seg.start + (i' : ℚ) * tpw = c.start := hcs.symm
          _ < c.«end» := hcc
          _ ≤ seg.start + ((i' : ℚ) + (len : ℚ)) * tpw := hmin
      have hlen0 : (0 : ℚ) < (len : ℚ) := by exact_mod_cast hlen1
      have hlt : 0 < (len : ℚ) * tpw := by
        have h3 : (i' : ℚ) * tpw < ((i' : ℚ) + (len : ℚ)) * tpw := by linarith
        have h4 := sub_pos.2 h3
        have heq : ((i' : ℚ) + (len : ℚ)) * tpw - (i' : ℚ) * tpw = (len : ℚ) * tpw := by
          ring
        rw [heq] at h4
        exact h4
      have htpw : 0 < tpw := by
        by_contra hnp
        push_neg at hnp
        have := mul_nonpos_of_nonneg_of_nonpos (le_of_lt hlen0) hnp
        linarith
      have ht2' : t < seg.start + ((i' : ℚ) + (len : ℚ)) * tpw :=
        lt_of_lt_of_le ht2 hmin
      have ht1' : seg.start + (i' : ℚ) * tpw ≤ t := by
        rw [← hcs]
        exact ht1
      have hwi_lb : (i' : ℤ) ≤ ⌊(t - seg.start) / tpw⌋ := by
        rw [Int.le_floor]
        rw [le_div_iff htpw]
        push_cast
        linarith
      have hwi_ub : ⌊(t - seg.start) / tpw⌋ < (i' : ℤ) + (len : ℤ) := by
        rw [Int.floor_lt]
        rw [div_lt_iff htpw]
        push_cast
        linarith
      obtain ⟨g, hg⟩ := hdvd
      have hmQ : (0 : ℚ) < (maxWords : ℚ) := by exact_mod_cast hm
      have hci : ⌊((⌊(t - seg.start) / tpw⌋ : ℤ) : ℚ) / (maxWords : ℚ)⌋ = (g : ℤ) := by
        rw [Int.floor_eq_iff]
        constructor
        · rw [le_div_iff hmQ]
          have hlb : ((maxWords * g : ℕ) : ℤ) ≤ ⌊(t - seg.start) / tpw⌋ := by
            rw [← hg]
            exact hwi_lb
          have hlb' : ((maxWords * g : ℕ) : ℚ) ≤ ((⌊(t - seg.start) / tpw⌋ : ℤ) : ℚ) := by
            exact_mod_cast hlb
          push_cast at hlb' ⊢
          linarith
        · rw [div_lt_iff hmQ]
          have hub : ⌊(t - seg.start) / tpw⌋ < ((maxWords * g + maxWords : ℕ) : ℤ) := by
            have hlenZ : (len : ℤ) ≤ (maxWords : ℤ) := by exact_mod_cast hlenM
            have := hwi_ub
            rw [hg] at this
            push_cast at this ⊢
            omega
          have hub' : ((⌊(t - seg.start) / tpw⌋ : ℤ) : ℚ) <
              ((maxWords * g + maxWords : ℕ) : ℚ) := by exact_mod_cast hub
          push_cast at hub' ⊢
          linarith
      simp only [getChunkedCaption]
      rw [if_neg h0, if_neg hwlen, if_neg hle]
      rw [← hwsdef, ← htpwdef]
      rw [hci]
      have hsw : ((g : ℤ) * (maxWords : ℤ)) = ((g * maxWords : ℕ) : ℤ) := by push_cast; ring
      rw [hsw, jsSlice_natCast ws (g * maxWords) maxWords]
      rw [hct, hg, Nat.mul_comm maxWords g]

/-- Witness for `C7_preview_matches_export`: the second chunk of the 7-word
example spans `[95/7, 15)` and the lookup at `t = 14` returns its text. -/
theorem C7_preview_matches_export_witness :
    1 ≤ 5 ∧
    ({ start := 95/7, «end» := 15, text := "six seven".toList } : TranscriptSegment) ∈
      chunkSegments
        [ { start := 10, «end» := 15, text := "one two three four five six seven".toList } ]
        5 0 ∧
    (95/7 : ℚ) ≤ 14 ∧ (14 : ℚ) < 15 ∧
    getChunkedCaption
      { start := 10, «end» := 15, text := "one two three four five six seven".toList }
      14 5 = some "six seven".toList :=
  ⟨by decide, by decide, by decide, by decide,
    C7_preview_matches_export
      { start := 10, «end» := 15, text := "one two three four five six seven".toList }
      5 0 14 { start := 95/7, «end» := 15, text := "six seven".toList }
      (by decide) (by decide) (by decide) (by decide)⟩

end Downlo
